import Mathlib

/-! AMBE 49-bit to 72-bit frame conversion (`AMBEUtils.cpp`, `Common.h`).

A shallow embedding of `vocoder::AMBEUtils` and of the interleave tables of
`Common.h`.

Conventions of the embedding.

* A C array or a buffer reached through a pointer (`uint8_t*`, `char[4][24]`,
  `array<Byte>`) is a `List Nat` of byte values; a load is `List.getD _ _ 0` and a store
  is `List.set`.  The matrix cell `ambe_fr[r][c]` is the flat index `r * 24 + c`.
* `int` values that are never negative in the code are `Nat`; the one place where an
  arbitrary `int` enters (`golay2312word`'s argument before its mask) is `Int`.
* `for` loops are left folds over the list of values taken by the loop variable, in the
  order the loop takes them.
-/

namespace vocoder

/-! ## Tables of `Common.h` -/

/-- Row of the first bit of each output bit pair. -/
def rW : List Nat := [
  0, 1, 0, 1, 0, 1,
  0, 1, 0, 1, 0, 1,
  0, 1, 0, 1, 0, 1,
  0, 1, 0, 1, 0, 2,
  0, 2, 0, 2, 0, 2,
  0, 2, 0, 2, 0, 2]

/-- Column of the first bit of each output bit pair. -/
def rX : List Nat := [
  23, 10, 22, 9, 21, 8,
  20, 7, 19, 6, 18, 5,
  17, 4, 16, 3, 15, 2,
  14, 1, 13, 0, 12, 10,
  11, 9, 10, 8, 9, 7,
  8, 6, 7, 5, 6, 4]

/-- Row of the second bit of each output bit pair. -/
def rY : List Nat := [
  0, 2, 0, 2, 0, 2,
  0, 2, 0, 3, 0, 3,
  1, 3, 1, 3, 1, 3,
  1, 3, 1, 3, 1, 3,
  1, 3, 1, 3, 1, 3,
  1, 3, 1, 3, 1, 3]

/-- Column of the second bit of each output bit pair. -/
def rZ : List Nat := [
  5, 3, 4, 2, 3, 1,
  2, 0, 1, 13, 0, 12,
  22, 11, 21, 10, 20, 9,
  19, 8, 18, 7, 17, 6,
  16, 5, 15, 4, 14, 3,
  13, 2, 12, 1, 11, 0]

/-! ## `AMBEUtils` -/

/-- The function `Parity` of the source (fold-XOR of the three low bytes of `cw`), for a
codeword `cw` that is not negative. -/
def Parity (cw : Nat) : Nat :=
  let p := cw &&& 0xFF
  let p := p ^^^ ((cw >>> 8) &&& 0xFF)
  let p := p ^^^ ((cw >>> 16) &&& 0xFF)
  let p := p ^^^ (p >>> 4)
  let p := p ^^^ (p >>> 2)
  let p := p ^^^ (p >>> 1)
  p &&& 1

/-- The function `parity` of the source: XOR the bytes of the codeword, then XOR the
halves of the intermediate result, and return the low bit.  The source calls it on a
Golay codeword, which is never negative, so `cw` is a `Nat`. -/
def parity (cw : Nat) : Nat :=
  let p := cw &&& 0xff
  let p := p ^^^ ((cw >>> 8) &&& 0xff)
  let p := p ^^^ ((cw >>> 16) &&& 0xff)
  let p := p ^^^ (p >>> 4)
  let p := p ^^^ (p >>> 2)
  let p := p ^^^ (p >>> 1)
  p &&& 1

/-- One pass of the loop body of `golay2312word`: test the data bit, XOR the
polynomial, shift the intermediate result. -/
def golayStep (POLY : Nat) (cw : Nat) : Nat :=
  let cw := if cw &&& 1 ≠ 0 then cw ^^^ POLY else cw
  cw >>> 1

/-- The function `golay2312word` of the source.  The argument is an arbitrary `int`; after
the mask `cw & 0x0fff` the value is non-negative and everything else is on `Nat`.  The
loop `for (i = 1; i < 13; i++)` does not use `i` in its body. -/
def golay2312word (cw : Int) : Nat :=
  let POLY := 0xAE3
  let cw := (Int.land cw 0x0fff).toNat
  let c := cw
  let cw := (List.range' 1 12).foldl (fun cw _ => golayStep POLY cw) cw
  (cw <<< 12) ||| c

/-- The bit-unpacking loop of `convert49BitTo72BitAMBE` (`for j`, `for i`), started on
the buffer `ambe49bits` with `pos = 0`; the result is the buffer after the loop.  The
inner body stores `tmp ? 1 : 0` at `ambe49bits[pos]`, where
`tmp = inAmbe49[pos >> 3] & (1 << i)`, and increments `pos`.  The loops run `7 * 8 = 56`
times, so `pos` takes the values `0 .. 55`.  A store at an index past the end of the list
`ambe49bits` leaves the list as it is; `unpackBitsChecked` is the same loop with such a
store reported. -/
def unpackBits (inAmbe49 : List Nat) (ambe49bits : List Nat) : List Nat :=
  ((List.range 7).foldl (fun st _ =>
    (List.range 8).reverse.foldl (fun (st : List Nat × Nat) i =>
      let tmp := inAmbe49.getD (st.2 >>> 3) 0 &&& (1 <<< i)
      (st.1.set st.2 (if tmp ≠ 0 then 1 else 0), st.2 + 1)) st)
    (ambe49bits, 0)).1

/-- The function `convert49BitAmbeTo72BitFrames` of the source: `inAmbe49bits` is the
unpacked bit buffer, `ambe_frOut` the flat 4x24 frame on entry, the result the frame on
return. -/
def convert49BitAmbeTo72BitFrames (inAmbe49bits : List Nat) (ambe_frOut : List Nat) :
    List Nat :=
  -- grab the 12 MSB
  let tmp := (List.range 12).reverse.foldl
    (fun tmp i => (tmp <<< 1) ||| (if inAmbe49bits.getD i 0 ≠ 0 then 1 else 0)) 0
  let tmp := golay2312word tmp
  let parityBit := parity tmp
  let tmp := tmp ||| (parityBit <<< 23)
  let st := (List.range 24).reverse.foldl
    (fun (st : List Nat × Nat) i => (st.1.set i (st.2 &&& 1), st.2 >>> 1))
    (ambe_frOut, tmp)
  let ambe_frOut := st.1
  -- C1: 12 bits + 11ecc (no parity)
  let tmp := (List.range' 12 12).reverse.foldl
    (fun tmp i => (tmp <<< 1) ||| (if inAmbe49bits.getD i 0 ≠ 0 then 1 else 0)) 0
  let tmp := golay2312word tmp
  let st := (List.range 23).reverse.foldl
    (fun (st : List Nat × Nat) j => (st.1.set (1 * 24 + j) (st.2 &&& 1), st.2 >>> 1))
    (ambe_frOut, tmp)
  let ambe_frOut := st.1
  -- C2: 11 bits (no ecc)
  let ambe_frOut := (List.range 11).reverse.foldl
    (fun fr j => fr.set (2 * 24 + j) (inAmbe49bits.getD (34 - j) 0)) ambe_frOut
  -- C3: 14 bits (no ecc)
  let ambe_frOut := (List.range 14).reverse.foldl
    (fun fr j => fr.set (3 * 24 + j) (inAmbe49bits.getD (48 - j) 0)) ambe_frOut
  ambe_frOut

/-- The low 16 bits of a `char` cell (given by its byte value) after the integer
promotion in `foo |= ambe_fr[0][i]`: `char` is signed for the compiler this C++/CLI
source is written for, so a byte of 128 or more is sign-extended.  A cell holding 0 or 1
is returned unchanged. -/
def charLow16 (b : Nat) : Nat :=
  if b < 128 then b else 0xFF00 + b

/-- The function `mbe_demodulateAmbe3600x2450Data` of the source, on the flat frame.
`foo` and the entries of `pr` are `unsigned short`, hence the reductions modulo 65536.
The local array `pr[115]` is not initialised in the source (zero here); its entries
`0 .. 23` are all stored before they are loaded. -/
def mbe_demodulateAmbe3600x2450Data (ambe_fr : List Nat) : List Nat :=
  -- create pseudo-random modulator
  let foo := (List.range' 12 12).reverse.foldl
    (fun foo i => ((foo <<< 1) % 65536) ||| charLow16 (ambe_fr.getD (0 * 24 + i) 0)) 0
  let pr : List Nat := (List.replicate 115 0).set 0 ((16 * foo) % 65536)
  let pr := (List.range' 1 23).foldl
    (fun pr i => pr.set i
      ((173 * pr.getD (i - 1) 0) + 13849
        - (65536 * (((173 * pr.getD (i - 1) 0) + 13849) / 65536)))) pr
  let pr := (List.range' 1 23).foldl
    (fun pr i => pr.set i (pr.getD i 0 / 32768)) pr
  -- demodulate ambe_fr with pr
  let st := (List.range 23).reverse.foldl
    (fun (st : List Nat × Nat) j =>
      (st.1.set (1 * 24 + j) (st.1.getD (1 * 24 + j) 0 ^^^ pr.getD st.2 0), st.2 + 1))
    (ambe_fr, 1)
  st.1

/-- The function `interleave` of the source: `ambe_fr` is the flat frame, `dataOut` the
output buffer on entry, the result the output buffer on return.  The counters `w`, `x`,
`y`, `z` all start at 0 and are incremented once at the end of every pass, so each equals
the loop variable `i`. -/
def interleave (ambe_fr : List Nat) (dataOut : List Nat) : List Nat :=
  ((List.range 36).foldl (fun (st : List Nat × Nat) i =>
    let dataOut := st.1
    let bitIndex := st.2
    let bit1 := ambe_fr.getD (rW.getD i 0 * 24 + rX.getD i 0) 0
    let bit0 := ambe_fr.getD (rY.getD i 0 * 24 + rZ.getD i 0) 0
    let dataOut := dataOut.set (bitIndex >>> 3)
      (((dataOut.getD (bitIndex >>> 3) 0 <<< 1) &&& 0xfe) ||| bit1)
    let bitIndex := bitIndex + 1
    let dataOut := dataOut.set (bitIndex >>> 3)
      (((dataOut.getD (bitIndex >>> 3) 0 <<< 1) &&& 0xfe) ||| bit0)
    let bitIndex := bitIndex + 1
    (dataOut, bitIndex)) (dataOut, 0)).1

/-- The unpacking loop of `convert49BitTo72BitAMBE` with the bounds of the bit buffer
checked: the loop of `unpackBits`, in which a store at an index past the end of
`ambe49bits` ends the run with `none`.  A store past the end of an array has no defined
behaviour in C++, so nothing is said about the rest of such a run. -/
def unpackBitsChecked (inAmbe49 : List Nat) (ambe49bits : List Nat) : Option (List Nat) :=
  ((List.range 7).foldl (fun st _ =>
    (List.range 8).reverse.foldl (fun (st : Option (List Nat × Nat)) i =>
      st.bind (fun st =>
        let tmp := inAmbe49.getD (st.2 >>> 3) 0 &&& (1 <<< i)
        if st.2 < st.1.length then some (st.1.set st.2 (if tmp ≠ 0 then 1 else 0), st.2 + 1)
        else none)) st)
    (some (ambe49bits, 0))).map Prod.fst

/-- The function `convert49BitTo72BitAMBE` of the source: `inAmbe49` is the input buffer,
`outAmbe72` the output buffer on entry; the result is `some` of the output buffer on
return, or `none` when the run has stored past the end of the local array
`ambe49bits[49]` (undefined behaviour).  The frame `ambeFrame[4][24]` is zeroed by
`memset`; `ambe49bits` is not initialised in the source (zero here) and every entry
loaded from it is stored by the unpacking loop first.  The stores of the three stages
after the unpacking loop stay inside their arrays. -/
def convert49BitTo72BitAMBE (inAmbe49 : List Nat) (outAmbe72 : List Nat) :
    Option (List Nat) :=
  let ambeFrame := List.replicate (24 * 4) 0
  (unpackBitsChecked inAmbe49 (List.replicate 49 0)).map (fun ambe49bits =>
    let ambeFrame := convert49BitAmbeTo72BitFrames ambe49bits ambeFrame
    let ambeFrame := mbe_demodulateAmbe3600x2450Data ambeFrame
    interleave ambeFrame outAmbe72)

/-- The exception raised by `ProcessAmbe49`. -/
inductive ArgumentException where
  | mk (message : String)
  deriving DecidableEq, Repr

/-- How a call of `ProcessAmbe49` ends: it returns with an array assigned to the out
parameter `outAmbe72`, it throws, or it runs into undefined behaviour (a store past the
end of an array), after which the program guarantees nothing. -/
inductive Outcome where
  | returned (outAmbe72 : List Nat)
  | thrown (e : ArgumentException)
  | undefinedBehaviour
  deriving DecidableEq, Repr

/-- The function `ProcessAmbe49` of the source.  The managed array argument is `none`
for `nullptr` and `some bytes` otherwise.  The array assigned to `outAmbe72` is a fresh
zero-filled array of 9 bytes, filled through its pinned pointer by
`convert49BitTo72BitAMBE`. -/
def ProcessAmbe49 (inAmbe49 : Option (List Nat)) : Outcome :=
  match inAmbe49 with
  | none => Outcome.thrown (ArgumentException.mk "Input AMBE must be 7 bytes (49 bits).")
  | some inAmbe49 =>
    if inAmbe49.length ≠ 7 then
      Outcome.thrown (ArgumentException.mk "Input AMBE must be 7 bytes (49 bits).")
    else
      let outAmbe72 : List Nat := List.replicate 9 0
      match convert49BitTo72BitAMBE inAmbe49 outAmbe72 with
      | some outAmbe72 => Outcome.returned outAmbe72
      | none => Outcome.undefinedBehaviour

/-! ## Notions used to state the properties -/

/-- Number of set bits among the `w` low bits of `n`. -/
def bitCount : Nat → Nat → Nat
  | 0, _ => 0
  | w + 1, n => bitCount w n + n / 2 ^ w % 2

/-- Hamming distance of two 23-bit words: the number of bit positions `0 .. 22` in which
they differ. -/
def hammingDist (a b : Nat) : Nat :=
  bitCount 23 (a ^^^ b)

/-- Bit `n` of a byte buffer read as a bit stream, the most significant bit of each byte
first: bit `7 - n % 8` of byte `n / 8`. -/
def streamBit (data : List Nat) (n : Nat) : Nat :=
  (data.getD (n / 8) 0 >>> (7 - n % 8)) &&& 1

/-- The flat matrix address the interleaver loads for output stream bit `n`: the cell
`(rW, rX)` of pair `n / 2` for an even `n`, the cell `(rY, rZ)` for an odd one. -/
def cellAddr (n : Nat) : Nat :=
  if n % 2 = 0 then rW.getD (n / 2) 0 * 24 + rX.getD (n / 2) 0
  else rY.getD (n / 2) 0 * 24 + rZ.getD (n / 2) 0

/-- The inverse permutation of the interleaver, built from the tables: the 4x24 frame
whose cell `cellAddr n` holds stream bit `n` of `data`, for `n` in `0 .. 71`, and whose
other cells are 0.  (The decoder class the source includes, `MBEInterleaver`, is not
among the source files; this function is not a model of it.) -/
def deinterleave (data : List Nat) : List Nat :=
  (List.range 96).map (fun c =>
    match (List.range 72).find? (fun n => cellAddr n = c) with
    | some n => streamBit data n
    | none => 0)

/-- A decoder for error-free frames, inverse to the encoder stage by stage:
de-interleave, apply the keystream derived from row 0 again, and read the data columns
of the four rows back into the 49 bit positions (row 0 columns 23 .. 12, row 1 columns
22 .. 11, row 2 columns 10 .. 0, row 3 columns 13 .. 0). -/
def decode49 (data : List Nat) : List Nat :=
  let fr := mbe_demodulateAmbe3600x2450Data (deinterleave data)
  (List.range 49).map (fun p =>
    if p < 12 then fr.getD (0 * 24 + (23 - p)) 0
    else if p < 24 then fr.getD (1 * 24 + (34 - p)) 0
    else if p < 35 then fr.getD (2 * 24 + (34 - p)) 0
    else fr.getD (3 * 24 + (48 - p)) 0)

/-- The sequence `s_0 = seed`, `s_k = (173 * s_(k-1) + 13849) mod 65536`. -/
def lcgSeq (seed : Nat) : Nat → Nat
  | 0 => seed
  | k + 1 => (173 * lcgSeq seed k + 13849) % 65536

/-- The number whose bit `i` is `b i` for `i < n` (each `b i` being 0 or 1). -/
def bitsValue (b : Nat → Nat) : Nat → Nat
  | 0 => 0
  | n + 1 => bitsValue b n + b n * 2 ^ n

/-- The value of row 0 columns 12 .. 23 of a frame read as a 12-bit number with column 23
the most significant bit and column 12 the least significant: column `12 + t` has weight
`2 ^ t`. -/
def row0Seed (ambe_fr : List Nat) : Nat :=
  bitsValue (fun t => ambe_fr.getD (12 + t) 0) 12

/-- The 24-bit value held by row `r` of a frame, column 0 being the most significant bit
and column 23 the least significant: column `23 - i` has weight `2 ^ i`. -/
def rowValue (ambe_fr : List Nat) (r : Nat) : Nat :=
  bitsValue (fun i => ambe_fr.getD (r * 24 + (23 - i)) 0) 24

/-- The array `pr` of `mbe_demodulateAmbe3600x2450Data` at the point where the loop over
row 1 starts: the first three loops of that function. -/
def keystream (ambe_fr : List Nat) : List Nat :=
  let foo := (List.range' 12 12).reverse.foldl
    (fun foo i => ((foo <<< 1) % 65536) ||| charLow16 (ambe_fr.getD (0 * 24 + i) 0)) 0
  let pr : List Nat := (List.replicate 115 0).set 0 ((16 * foo) % 65536)
  let pr := (List.range' 1 23).foldl
    (fun pr i => pr.set i
      ((173 * pr.getD (i - 1) 0) + 13849
        - (65536 * (((173 * pr.getD (i - 1) 0) + 13849) / 65536)))) pr
  let pr := (List.range' 1 23).foldl
    (fun pr i => pr.set i (pr.getD i 0 / 32768)) pr
  pr

/-- The body of `golay2312word` after the mask, on the masked value `c`. -/
def golayCore (c : Nat) : Nat :=
  ((List.range' 1 12).foldl (fun cw _ => golayStep 0xAE3 cw) c <<< 12) ||| c

/-- The 12-bit data value of field C0: input bit `i` is bit `i` of the value, for
`i` in `0 .. 11`, so input bit 11 is the most significant. -/
def c0Data (inAmbe49bits : List Nat) : Nat :=
  bitsValue (fun i => if inAmbe49bits.getD i 0 ≠ 0 then 1 else 0) 12

/-- The 12-bit data value of field C1: input bit `12 + i` is bit `i` of the value. -/
def c1Data (inAmbe49bits : List Nat) : Nat :=
  bitsValue (fun i => if inAmbe49bits.getD (12 + i) 0 ≠ 0 then 1 else 0) 12

/-- The 24-bit C0 field: the Golay codeword of the C0 data with its parity as bit 23. -/
def c0Word (inAmbe49bits : List Nat) : Nat :=
  golay2312word (c0Data inAmbe49bits) ||| (parity (golay2312word (c0Data inAmbe49bits)) <<< 23)

/-- One append to the output bit stream, as `interleave` does it twice per pass: shift
the current output byte left by one, OR in the new bit, advance the bit cursor. -/
def appendBit (st : List Nat × Nat) (bit : Nat) : List Nat × Nat :=
  (st.1.set (st.2 >>> 3) (((st.1.getD (st.2 >>> 3) 0 <<< 1) &&& 0xfe) ||| bit), st.2 + 1)

/-- The byte made of the stream bits `8 * k .. 8 * k + 7` of `s`, the first one most
significant. -/
def packByte (s : Nat → Nat) (k : Nat) : Nat :=
  128 * s (8 * k) + 64 * s (8 * k + 1) + 32 * s (8 * k + 2) + 16 * s (8 * k + 3)
    + 8 * s (8 * k + 4) + 4 * s (8 * k + 5) + 2 * s (8 * k + 6) + s (8 * k + 7)

/-- Checks `p` on every number below `2 ^ k`, halving the range at each level. -/
def allBits : Nat → (Nat → Bool) → Bool
  | 0, p => p 0
  | k + 1, p => allBits k (fun c => p (2 * c) && p (2 * c + 1))

/-! ## The loads and stores of the loops -/

/-- The accesses of the unpacking loop of `convert49BitTo72BitAMBE`, in program order:
one entry `(i, pos >> 3, pos)` for every pass of the inner body, giving the loop variable
`i`, the index at which `inAmbe49` is loaded and the index at which `ambe49bits` is
stored.  The loop is that of `unpackBits` with the store replaced by a log entry. -/
def unpackAccesses : List (Nat × Nat × Nat) :=
  ((List.range 7).foldl (fun st _ =>
    (List.range 8).reverse.foldl (fun (st : List (Nat × Nat × Nat) × Nat) i =>
      (st.1 ++ [(i, st.2 >>> 3, st.2)], st.2 + 1)) st)
    ([], 0)).1

/-- The accesses of `interleave`, in program order: for every pass, the cell of
`ambe_fr` loaded for `bit1` with the index `bitIndex >> 3` at which `dataOut` is then
stored, and the same for `bit0`.  The loop is that of `interleave` with the stores
replaced by log entries. -/
def interleaveAccesses : List (Nat × Nat) :=
  ((List.range 36).foldl (fun (st : List (Nat × Nat) × Nat) i =>
    let log := st.1
    let bitIndex := st.2
    let log := log ++ [(rW.getD i 0 * 24 + rX.getD i 0, bitIndex >>> 3)]
    let bitIndex := bitIndex + 1
    let log := log ++ [(rY.getD i 0 * 24 + rZ.getD i 0, bitIndex >>> 3)]
    let bitIndex := bitIndex + 1
    (log, bitIndex)) ([], 0)).1

/-- The indices of `ambe_frOut` at which `convert49BitAmbeTo72BitFrames` stores, in
program order: the four store loops of that function with each store replaced by a log
entry. -/
def frameStores : List Nat :=
  let log := (List.range 24).reverse.foldl (fun log i => log ++ [i]) []
  let log := (List.range 23).reverse.foldl (fun log j => log ++ [1 * 24 + j]) log
  let log := (List.range 11).reverse.foldl (fun log j => log ++ [2 * 24 + j]) log
  let log := (List.range 14).reverse.foldl (fun log j => log ++ [3 * 24 + j]) log
  log

/-! ## Bit counting -/

theorem allBits_spec : ∀ (k : Nat) (p : Nat → Bool), allBits k p = true →
    ∀ c, c < 2 ^ k → p c = true := by
  intro k
  induction k with
  | zero =>
    intro p h c hc
    have : c = 0 := by simpa using hc
    subst this
    exact h
  | succ k ih =>
    intro p h c hc
    have h2 := ih _ h (c / 2) (by rw [Nat.pow_succ] at hc; omega)
    simp only [Bool.and_eq_true] at h2
    rcases Nat.mod_two_eq_zero_or_one c with h0 | h1
    · have : 2 * (c / 2) = c := by omega
      rw [← this]; exact h2.1
    · have : 2 * (c / 2) + 1 = c := by omega
      rw [← this]; exact h2.2

theorem bit_le_one (n w : Nat) : n / 2 ^ w % 2 ≤ 1 := by
  have := Nat.mod_lt (n / 2 ^ w) (show 0 < 2 by decide)
  omega

theorem xor_bit (a b w : Nat) :
    (a ^^^ b) / 2 ^ w % 2 = (a / 2 ^ w % 2 + b / 2 ^ w % 2) % 2 := by
  rw [← Nat.toNat_testBit, ← Nat.toNat_testBit, ← Nat.toNat_testBit, Nat.testBit_xor]
  cases a.testBit w <;> cases b.testBit w <;> rfl

theorem bitCount_xor_mod (w a b : Nat) :
    bitCount w (a ^^^ b) % 2 = (bitCount w a + bitCount w b) % 2 := by
  induction w with
  | zero => rfl
  | succ w ih =>
    simp only [bitCount]
    have h := xor_bit a b w
    omega

theorem bitCount_xor_le (w a b : Nat) :
    bitCount w (a ^^^ b) ≤ bitCount w a + bitCount w b := by
  induction w with
  | zero => simp [bitCount]
  | succ w ih =>
    simp only [bitCount]
    have h := xor_bit a b w
    have h1 := bit_le_one a w
    have h2 := bit_le_one b w
    omega

theorem bitCount_congr (w a b : Nat) (h : ∀ i, i < w → a / 2 ^ i % 2 = b / 2 ^ i % 2) :
    bitCount w a = bitCount w b := by
  induction w with
  | zero => rfl
  | succ w ih =>
    simp only [bitCount]
    rw [ih (fun i hi => h i (by omega)), h w (by omega)]

theorem bitCount_add (m n x : Nat) :
    bitCount (m + n) x = bitCount m x + bitCount n (x >>> m) := by
  induction n with
  | zero => simp [bitCount]
  | succ n ih =>
    rw [← Nat.add_assoc]
    simp only [bitCount]
    rw [ih, Nat.shiftRight_eq_div_pow, Nat.div_div_eq_div_mul, ← Nat.pow_add]
    omega

theorem bitCount_mod (w x : Nat) : bitCount w (x % 2 ^ w) = bitCount w x := by
  apply bitCount_congr
  intro i hi
  have h := Nat.testBit_mod_two_pow x w i
  rw [← Nat.toNat_testBit, ← Nat.toNat_testBit, h]
  simp [hi]

/-! ## `parity` -/

set_option maxRecDepth 100000 in
theorem parity_fold8 : ∀ p, p < 256 →
    ((p ^^^ (p >>> 4)) ^^^ ((p ^^^ (p >>> 4)) >>> 2) ^^^
      (((p ^^^ (p >>> 4)) ^^^ ((p ^^^ (p >>> 4)) >>> 2)) >>> 1)) &&& 1 = bitCount 8 p % 2 := by
  decide

theorem parity_eq_bitCount (cw : Nat) : parity cw = bitCount 24 cw % 2 := by
  have hb0 : cw &&& 0xff = cw % 2 ^ 8 := Nat.and_pow_two_sub_one_eq_mod cw 8
  have hb1 : (cw >>> 8) &&& 0xff = (cw >>> 8) % 2 ^ 8 := Nat.and_pow_two_sub_one_eq_mod _ 8
  have hb2 : (cw >>> 16) &&& 0xff = (cw >>> 16) % 2 ^ 8 := Nat.and_pow_two_sub_one_eq_mod _ 8
  have hlt : (cw % 2 ^ 8) ^^^ ((cw >>> 8) % 2 ^ 8) ^^^ ((cw >>> 16) % 2 ^ 8) < 2 ^ 8 :=
    Nat.xor_lt_two_pow (Nat.xor_lt_two_pow (Nat.mod_lt _ (by decide)) (Nat.mod_lt _ (by decide)))
      (Nat.mod_lt _ (by decide))
  have hfold := parity_fold8 _ hlt
  have hcount : bitCount 24 cw
      = bitCount 8 cw + bitCount 8 (cw >>> 8) + bitCount 8 (cw >>> 16) := by
    have h1 := bitCount_add 8 16 cw
    have h2 := bitCount_add 8 8 (cw >>> 8)
    have h3 : cw >>> 8 >>> 8 = cw >>> 16 := by rw [← Nat.shiftRight_add]
    rw [h3] at h2
    have e1 : (8 + 16 : Nat) = 24 := rfl
    have e2 : (8 + 8 : Nat) = 16 := rfl
    rw [e1] at h1
    rw [e2] at h2
    omega
  have hx := bitCount_xor_mod 8 ((cw % 2 ^ 8) ^^^ ((cw >>> 8) % 2 ^ 8)) ((cw >>> 16) % 2 ^ 8)
  have hy := bitCount_xor_mod 8 (cw % 2 ^ 8) ((cw >>> 8) % 2 ^ 8)
  rw [bitCount_mod] at hx
  rw [bitCount_mod, bitCount_mod] at hy
  show ((cw &&& 0xff) ^^^ ((cw >>> 8) &&& 0xff) ^^^ ((cw >>> 16) &&& 0xff)
      ^^^ (((cw &&& 0xff) ^^^ ((cw >>> 8) &&& 0xff) ^^^ ((cw >>> 16) &&& 0xff)) >>> 4)
      ^^^ ((((cw &&& 0xff) ^^^ ((cw >>> 8) &&& 0xff) ^^^ ((cw >>> 16) &&& 0xff))
        ^^^ (((cw &&& 0xff) ^^^ ((cw >>> 8) &&& 0xff) ^^^ ((cw >>> 16) &&& 0xff)) >>> 4)) >>> 2)
      ^^^ (((((cw &&& 0xff) ^^^ ((cw >>> 8) &&& 0xff) ^^^ ((cw >>> 16) &&& 0xff))
        ^^^ (((cw &&& 0xff) ^^^ ((cw >>> 8) &&& 0xff) ^^^ ((cw >>> 16) &&& 0xff)) >>> 4))
        ^^^ ((((cw &&& 0xff) ^^^ ((cw >>> 8) &&& 0xff) ^^^ ((cw >>> 16) &&& 0xff))
        ^^^ (((cw &&& 0xff) ^^^ ((cw >>> 8) &&& 0xff) ^^^ ((cw >>> 16) &&& 0xff)) >>> 4)) >>> 2))
        >>> 1)) &&& 1 = bitCount 24 cw % 2
  rw [hb0, hb1, hb2, hfold, hcount]
  omega

theorem Parity_eq_parity (cw : Nat) : Parity cw = parity cw := rfl

theorem parity_le_one (cw : Nat) : parity cw ≤ 1 := by
  rw [parity_eq_bitCount]
  omega

/-! ## `golay2312word` -/

theorem golay2312word_eq (cw : Int) :
    golay2312word cw = golayCore (Int.land cw 0x0fff).toNat := rfl

theorem land_mask_lt (cw : Int) : (Int.land cw 0x0fff).toNat < 4096 := by
  cases cw with
  | ofNat m =>
    show (m &&& 4095) < 2 ^ 12
    exact Nat.and_lt_two_pow m (by decide)
  | negSucc m =>
    show (Nat.ldiff 4095 m) < 2 ^ 12
    apply Nat.lt_pow_two_of_testBit
    intro i hi
    rw [Nat.testBit_ldiff]
    have : Nat.testBit 4095 i = false :=
      Nat.testBit_lt_two_pow (Nat.lt_of_lt_of_le (by decide : 4095 < 2 ^ 12)
        (Nat.pow_le_pow_right (by decide) hi))
    simp [this]

theorem land_mask_natCast (d : Nat) (hd : d < 4096) : (Int.land (d : Int) 0x0fff).toNat = d := by
  show (d &&& 4095) = d
  have := Nat.and_pow_two_sub_one_eq_mod d 12
  have h2 : (2 ^ 12 - 1 : Nat) = 4095 := rfl
  rw [h2] at this
  rw [this]
  exact Nat.mod_eq_of_lt hd

theorem golay2312word_natCast (d : Nat) (hd : d < 4096) :
    golay2312word (d : Int) = golayCore d := by
  rw [golay2312word_eq, land_mask_natCast d hd]

theorem golayStep_lt (cw : Nat) (h : cw < 4096) : golayStep 0xAE3 cw < 2048 := by
  unfold golayStep
  have hx : cw ^^^ 0xAE3 < 2 ^ 12 := Nat.xor_lt_two_pow h (by decide)
  split <;> (rw [Nat.shiftRight_eq_div_pow]; omega)

theorem golayLoop_lt (n : Nat) : ∀ c, c < 4096 →
    (List.range' 1 n).foldl (fun cw _ => golayStep 0xAE3 cw) c < 4096 := by
  intro c hc
  generalize List.range' 1 n = l
  induction l generalizing c with
  | nil => exact hc
  | cons a l ih =>
    exact ih _ (Nat.lt_trans (golayStep_lt c hc) (by decide))

theorem golayLoop_lt_2048 (c : Nat) (hc : c < 4096) :
    (List.range' 1 12).foldl (fun cw _ => golayStep 0xAE3 cw) c < 2048 := by
  have h : List.range' 1 12 = List.range' 1 11 ++ [12] := by decide
  rw [h, List.foldl_append]
  exact golayStep_lt _ (golayLoop_lt 11 c hc)

theorem shl12_or (x c : Nat) (hc : c < 4096) : (x <<< 12) ||| c = 4096 * x + c := by
  rw [Nat.shiftLeft_eq, Nat.mul_comm]
  exact (Nat.mul_add_lt_is_or (i := 12) hc x).symm

theorem golayCore_eq (c : Nat) (hc : c < 4096) :
    golayCore c = 4096 * (List.range' 1 12).foldl (fun cw _ => golayStep 0xAE3 cw) c + c :=
  shl12_or _ c hc

theorem golayCore_lt (c : Nat) (hc : c < 4096) : golayCore c < 2 ^ 23 := by
  rw [golayCore_eq c hc]
  have := golayLoop_lt_2048 c hc
  omega

theorem golayCore_low (c : Nat) (hc : c < 4096) : golayCore c &&& 0xFFF = c := by
  rw [golayCore_eq c hc]
  have := Nat.and_pow_two_sub_one_eq_mod
    (4096 * (List.range' 1 12).foldl (fun cw _ => golayStep 0xAE3 cw) c + c) 12
  have h2 : (2 ^ 12 - 1 : Nat) = 4095 := rfl
  rw [h2] at this
  rw [this]
  omega

theorem golayCore_mod (c : Nat) (hc : c < 4096) : golayCore c % 4096 = c := by
  rw [golayCore_eq c hc]
  omega

/-! ## Linearity and minimum distance of the Golay code -/

theorem shiftRight_one_xor (a b : Nat) : (a ^^^ b) >>> 1 = (a >>> 1) ^^^ (b >>> 1) := by
  apply Nat.eq_of_testBit_eq
  intro i
  simp [Nat.testBit_shiftRight, Nat.testBit_xor]

theorem golayStep_xor (P a b : Nat) :
    golayStep P (a ^^^ b) = golayStep P a ^^^ golayStep P b := by
  unfold golayStep
  have hab := Nat.xor_mod_two_eq (m := a) (n := b)
  simp only [Nat.and_one_is_mod]
  rcases Nat.mod_two_eq_zero_or_one a with ha | ha <;>
    rcases Nat.mod_two_eq_zero_or_one b with hb | hb
  · have h : (a ^^^ b) % 2 = 0 := by omega
    simp [ha, hb, h, shiftRight_one_xor]
  · have h : (a ^^^ b) % 2 = 1 := by omega
    simp only [ha, hb, h, ne_eq, not_true_eq_false, not_false_eq_true, if_true, if_false,
      one_ne_zero, shiftRight_one_xor]
    rw [Nat.xor_assoc]
  · have h : (a ^^^ b) % 2 = 1 := by omega
    simp only [ha, hb, h, ne_eq, not_true_eq_false, not_false_eq_true, if_true, if_false,
      one_ne_zero, shiftRight_one_xor]
    rw [Nat.xor_assoc, Nat.xor_comm (b >>> 1), ← Nat.xor_assoc]
  · have h : (a ^^^ b) % 2 = 0 := by omega
    simp only [ha, hb, h, ne_eq, not_true_eq_false, not_false_eq_true, if_true, if_false,
      one_ne_zero, shiftRight_one_xor]
    rw [Nat.xor_assoc (a >>> 1), ← Nat.xor_assoc (P >>> 1), Nat.xor_comm (P >>> 1) (b >>> 1),
      Nat.xor_assoc (b >>> 1), Nat.xor_self, Nat.xor_zero]

theorem golayLoop_xor (l : List Nat) : ∀ a b : Nat,
    l.foldl (fun cw _ => golayStep 0xAE3 cw) (a ^^^ b)
      = l.foldl (fun cw _ => golayStep 0xAE3 cw) a ^^^ l.foldl (fun cw _ => golayStep 0xAE3 cw) b := by
  induction l with
  | nil => intro a b; rfl
  | cons x l ih =>
    intro a b
    simp only [List.foldl_cons]
    rw [golayStep_xor, ih]

theorem shl12_or_xor (x y a b : Nat) (ha : a < 4096) (hb : b < 4096) :
    ((x ^^^ y) <<< 12) ||| (a ^^^ b) = ((x <<< 12) ||| a) ^^^ ((y <<< 12) ||| b) := by
  apply Nat.eq_of_testBit_eq
  intro i
  simp only [Nat.testBit_or, Nat.testBit_xor, Nat.testBit_shiftLeft]
  by_cases hi : 12 ≤ i
  · have h1 : a.testBit i = false :=
      Nat.testBit_lt_two_pow (Nat.lt_of_lt_of_le ha
        (Nat.pow_le_pow_right (show 0 < 2 by decide) hi : 2 ^ 12 ≤ 2 ^ i))
    have h2 : b.testBit i = false :=
      Nat.testBit_lt_two_pow (Nat.lt_of_lt_of_le hb
        (Nat.pow_le_pow_right (show 0 < 2 by decide) hi : 2 ^ 12 ≤ 2 ^ i))
    simp [hi, h1, h2]
  · simp [hi]

theorem golayCore_xor (a b : Nat) (ha : a < 4096) (hb : b < 4096) :
    golayCore (a ^^^ b) = golayCore a ^^^ golayCore b := by
  unfold golayCore
  rw [golayLoop_xor, shl12_or_xor _ _ _ _ ha hb]

set_option maxRecDepth 100000 in
theorem golayCore_weight_check :
    allBits 12 (fun c => c == 0 || decide (7 ≤ bitCount 23 (golayCore c))) = true := by
  decide!

theorem golayCore_weight (c : Nat) (hc : c < 4096) (h0 : c ≠ 0) :
    7 ≤ bitCount 23 (golayCore c) := by
  have h := allBits_spec 12 _ golayCore_weight_check c hc
  simpa [h0] using h

theorem golayCore_dist (d1 d2 : Nat) (h1 : d1 < 4096) (h2 : d2 < 4096) (hne : d1 ≠ d2) :
    7 ≤ hammingDist (golayCore d1) (golayCore d2) := by
  unfold hammingDist
  rw [← golayCore_xor d1 d2 h1 h2]
  apply golayCore_weight
  · exact Nat.xor_lt_two_pow (n := 12) h1 h2
  · intro h
    exact hne (Nat.xor_eq_zero.mp h)

theorem golayCore_unique (d d2 e : Nat) (h1 : d < 4096) (h2 : d2 < 4096)
    (he : bitCount 23 e ≤ 3) (hd : hammingDist (golayCore d ^^^ e) (golayCore d2) ≤ 3) :
    d2 = d := by
  by_contra hne
  have h7 := golayCore_dist d d2 h1 h2 (fun h => hne h.symm)
  unfold hammingDist at h7 hd
  have hx : golayCore d ^^^ golayCore d2 = e ^^^ ((golayCore d ^^^ e) ^^^ golayCore d2) := by
    rw [Nat.xor_comm (golayCore d) e, Nat.xor_assoc e, ← Nat.xor_assoc e,
      Nat.xor_self, Nat.zero_xor]
  rw [hx] at h7
  have := bitCount_xor_le 23 e ((golayCore d ^^^ e) ^^^ golayCore d2)
  omega

/-! ## Lists as buffers -/

theorem getD_set (l : List Nat) (i j v : Nat) :
    (l.set i v).getD j 0 = if i = j ∧ i < l.length then v else l.getD j 0 := by
  rw [List.getD_eq_getElem?_getD, List.getD_eq_getElem?_getD, List.getElem?_set]
  by_cases h : i = j
  · subst h
    by_cases h2 : i < l.length
    · simp [h2]
    · have : l[i]? = none := List.getElem?_eq_none (by omega)
      simp [h2, this]
  · simp [h]

theorem getD_replicate_zero (n c : Nat) : (List.replicate n 0).getD c 0 = 0 := by
  rw [List.getD_eq_getElem?_getD, List.getElem?_replicate]
  split <;> rfl

theorem getD_of_length_le (l : List Nat) (c : Nat) (h : l.length ≤ c) : l.getD c 0 = 0 := by
  rw [List.getD_eq_getElem?_getD, List.getElem?_eq_none h]
  rfl

theorem list_ext_getD (l1 l2 : List Nat) (hl : l1.length = l2.length)
    (h : ∀ c, c < l1.length → l1.getD c 0 = l2.getD c 0) : l1 = l2 := by
  apply List.ext_getElem hl
  intro n h1 h2
  have := h n h1
  rw [List.getD_eq_getElem?_getD, List.getD_eq_getElem?_getD,
    List.getElem?_eq_getElem h1, List.getElem?_eq_getElem h2] at this
  simpa using this

theorem range_succ_reverse (n : Nat) :
    (List.range (n + 1)).reverse = n :: (List.range n).reverse := by
  rw [List.range_succ, List.reverse_append]
  rfl

theorem shiftRight_and_one (x i : Nat) : (x >>> i) &&& 1 = (x.testBit i).toNat := by
  rw [Nat.and_one_is_mod, Nat.shiftRight_eq_div_pow, Nat.toNat_testBit]

/-! ## The loops of `convert49BitAmbeTo72BitFrames` -/

theorem bitsValue_lt (b : Nat → Nat) (hb : ∀ i, b i ≤ 1) : ∀ n, bitsValue b n < 2 ^ n := by
  intro n
  induction n with
  | zero => simp [bitsValue]
  | succ n ih =>
    simp only [bitsValue]
    have h1 : b n * 2 ^ n ≤ 1 * 2 ^ n := Nat.mul_le_mul_right _ (hb n)
    rw [Nat.pow_succ]
    omega

theorem testBit_bitsValue (b : Nat → Nat) (hb : ∀ i, b i ≤ 1) :
    ∀ n i, i < n → (bitsValue b n).testBit i = decide (b i = 1) := by
  intro n
  induction n with
  | zero => intro i hi; omega
  | succ n ih =>
    intro i hi
    simp only [bitsValue]
    rw [Nat.add_comm, Nat.mul_comm, Nat.testBit_mul_pow_two_add _ (bitsValue_lt b hb n)]
    by_cases h : i < n
    · simp [h, ih i h]
    · have : i = n := by omega
      subst this
      have h1 := hb i
      have h2 : b i = 0 ∨ b i = 1 := by omega
      rcases h2 with h2 | h2 <;> simp [h2]

theorem gather_loop (b : Nat → Nat) (hb : ∀ i, b i ≤ 1) : ∀ n acc,
    (List.range n).reverse.foldl (fun tmp i => (tmp <<< 1) ||| b i) acc
      = acc * 2 ^ n + bitsValue b n := by
  intro n
  induction n with
  | zero => intro acc; simp [bitsValue]
  | succ n ih =>
    intro acc
    rw [range_succ_reverse, List.foldl_cons, ih]
    have h1 : (acc <<< 1) ||| b n = 2 * acc + b n := by
      rw [Nat.shiftLeft_eq, Nat.mul_comm]
      exact (Nat.mul_add_lt_is_or (i := 1) (by have := hb n; omega) acc).symm
    rw [h1]
    simp only [bitsValue]
    rw [Nat.pow_succ]
    ring

theorem scatter_loop (g : Nat → Nat) (base : Nat) (hg : ∀ i, g i = base + i) :
    ∀ (n : Nat) (fr : List Nat) (tmp : Nat),
      ((List.range n).reverse.foldl
          (fun (st : List Nat × Nat) i => (st.1.set (g i) (st.2 &&& 1), st.2 >>> 1))
          (fr, tmp)).1.length = fr.length ∧
      ∀ c, ((List.range n).reverse.foldl
          (fun (st : List Nat × Nat) i => (st.1.set (g i) (st.2 &&& 1), st.2 >>> 1))
          (fr, tmp)).1.getD c 0
        = if base ≤ c ∧ c < base + n ∧ c < fr.length
          then (tmp >>> (base + n - 1 - c)) &&& 1 else fr.getD c 0 := by
  intro n
  induction n with
  | zero =>
    intro fr tmp
    refine ⟨rfl, fun c => ?_⟩
    have : ¬ (base ≤ c ∧ c < base + 0 ∧ c < fr.length) := by omega
    rw [if_neg this]
    rfl
  | succ n ih =>
    intro fr tmp
    rw [range_succ_reverse, List.foldl_cons]
    obtain ⟨hl, hget⟩ := ih (fr.set (g n) (tmp &&& 1)) (tmp >>> 1)
    refine ⟨by rw [hl, List.length_set], fun c => ?_⟩
    rw [hget c, List.length_set, getD_set, hg n]
    by_cases h1 : base ≤ c ∧ c < base + n ∧ c < fr.length
    · have h2 : base ≤ c ∧ c < base + (n + 1) ∧ c < fr.length := by omega
      rw [if_pos h1, if_pos h2, ← Nat.shiftRight_add]
      congr 2
      omega
    · rw [if_neg h1]
      by_cases h3 : base + n = c ∧ base + n < fr.length
      · have h2 : base ≤ c ∧ c < base + (n + 1) ∧ c < fr.length := by omega
        rw [if_pos h3, if_pos h2]
        have : base + (n + 1) - 1 - c = 0 := by omega
        rw [this]
        rfl
      · have h2 : ¬ (base ≤ c ∧ c < base + (n + 1) ∧ c < fr.length) := by omega
        rw [if_neg h3, if_neg h2]

theorem copy_loop (g h : Nat → Nat) (base : Nat) (hg : ∀ i, g i = base + i) :
    ∀ (n : Nat) (fr : List Nat),
      ((List.range n).reverse.foldl (fun (fr : List Nat) j => fr.set (g j) (h j)) fr).length
        = fr.length ∧
      ∀ c, ((List.range n).reverse.foldl (fun (fr : List Nat) j => fr.set (g j) (h j)) fr).getD c 0
        = if base ≤ c ∧ c < base + n ∧ c < fr.length then h (c - base) else fr.getD c 0 := by
  intro n
  induction n with
  | zero =>
    intro fr
    refine ⟨rfl, fun c => ?_⟩
    have : ¬ (base ≤ c ∧ c < base + 0 ∧ c < fr.length) := by omega
    rw [if_neg this]
    rfl
  | succ n ih =>
    intro fr
    rw [range_succ_reverse, List.foldl_cons]
    obtain ⟨hl, hget⟩ := ih (fr.set (g n) (h n))
    refine ⟨by rw [hl, List.length_set], fun c => ?_⟩
    rw [hget c, List.length_set, getD_set, hg n]
    by_cases h1 : base ≤ c ∧ c < base + n ∧ c < fr.length
    · have h2 : base ≤ c ∧ c < base + (n + 1) ∧ c < fr.length := by omega
      rw [if_pos h1, if_pos h2]
    · rw [if_neg h1]
      by_cases h3 : base + n = c ∧ base + n < fr.length
      · have h2 : base ≤ c ∧ c < base + (n + 1) ∧ c < fr.length := by omega
        rw [if_pos h3, if_pos h2]
        have : c - base = n := by omega
        rw [this]
      · have h2 : ¬ (base ≤ c ∧ c < base + (n + 1) ∧ c < fr.length) := by omega
        rw [if_neg h3, if_neg h2]

theorem gather_c0 (bits : List Nat) :
    (List.range 12).reverse.foldl
      (fun tmp i => (tmp <<< 1) ||| (if bits.getD i 0 ≠ 0 then 1 else 0)) 0 = c0Data bits := by
  have h := gather_loop (fun i => if bits.getD i 0 ≠ 0 then 1 else 0)
    (by intro i; show (if _ then 1 else 0) ≤ 1; split <;> omega) 12 0
  rw [Nat.zero_mul, Nat.zero_add] at h
  exact h

theorem gather_c1 (bits : List Nat) :
    (List.range' 12 12).reverse.foldl
      (fun tmp i => (tmp <<< 1) ||| (if bits.getD i 0 ≠ 0 then 1 else 0)) 0 = c1Data bits := by
  have h := gather_loop (fun i => if bits.getD (12 + i) 0 ≠ 0 then 1 else 0)
    (by intro i; show (if _ then 1 else 0) ≤ 1; split <;> omega) 12 0
  rw [Nat.zero_mul, Nat.zero_add] at h
  rw [List.range'_eq_map_range, ← List.map_reverse, List.foldl_map]
  exact h

theorem c0Data_lt (bits : List Nat) : c0Data bits < 4096 :=
  bitsValue_lt _ (by intro i; show (if _ then 1 else 0) ≤ 1; split <;> omega) 12

theorem c1Data_lt (bits : List Nat) : c1Data bits < 4096 :=
  bitsValue_lt _ (by intro i; show (if _ then 1 else 0) ≤ 1; split <;> omega) 12

theorem frames_spec (bits fr : List Nat) :
    (convert49BitAmbeTo72BitFrames bits fr).length = fr.length ∧
    ∀ c, (convert49BitAmbeTo72BitFrames bits fr).getD c 0 =
      if c < fr.length then
        if c < 24 then (c0Word bits >>> (23 - c)) &&& 1
        else if c < 47 then (golay2312word (c1Data bits) >>> (46 - c)) &&& 1
        else if 48 ≤ c ∧ c < 59 then bits.getD (34 - (c - 48)) 0
        else if 72 ≤ c ∧ c < 86 then bits.getD (48 - (c - 72)) 0
        else fr.getD c 0
      else 0 := by
  unfold convert49BitAmbeTo72BitFrames
  simp only []
  rw [gather_c0, gather_c1]
  obtain ⟨l0, g0⟩ := scatter_loop (fun i => i) 0 (by intro i; simp) 24 fr
    (golay2312word (c0Data bits) ||| (parity (golay2312word (c0Data bits)) <<< 23))
  generalize ((List.range 24).reverse.foldl
      (fun (st : List Nat × Nat) i => (st.1.set i (st.2 &&& 1), st.2 >>> 1))
      (fr, golay2312word (c0Data bits) ||| (parity (golay2312word (c0Data bits)) <<< 23))).1
    = F0 at l0 g0 ⊢
  obtain ⟨l1, g1⟩ := scatter_loop (fun j => 1 * 24 + j) 24 (by intro i; rfl) 23 F0
    (golay2312word (c1Data bits))
  generalize ((List.range 23).reverse.foldl
      (fun (st : List Nat × Nat) j => (st.1.set (1 * 24 + j) (st.2 &&& 1), st.2 >>> 1))
      (F0, golay2312word (c1Data bits))).1 = F1 at l1 g1 ⊢
  obtain ⟨l2, g2⟩ := copy_loop (fun j => 2 * 24 + j) (fun j => bits.getD (34 - j) 0) 48
    (by intro i; rfl) 11 F1
  generalize (List.range 11).reverse.foldl
      (fun (fr : List Nat) j => fr.set (2 * 24 + j) (bits.getD (34 - j) 0)) F1 = F2 at l2 g2 ⊢
  obtain ⟨l3, g3⟩ := copy_loop (fun j => 3 * 24 + j) (fun j => bits.getD (48 - j) 0) 72
    (by intro i; rfl) 14 F2
  generalize (List.range 14).reverse.foldl
      (fun (fr : List Nat) j => fr.set (3 * 24 + j) (bits.getD (48 - j) 0)) F2 = F3 at l3 g3 ⊢
  refine ⟨by omega, fun c => ?_⟩
  rw [g3 c, g2 c, g1 c, g0 c, l2, l1, l0]
  unfold c0Word
  by_cases hc : c < fr.length
  · rw [if_pos hc]
    by_cases h3 : 72 ≤ c ∧ c < 72 + 14 ∧ c < fr.length
    · rw [if_pos h3, if_neg (by omega), if_neg (by omega), if_neg (by omega), if_pos (by omega)]
    · rw [if_neg h3]
      by_cases h2 : 48 ≤ c ∧ c < 48 + 11 ∧ c < fr.length
      · rw [if_pos h2, if_neg (by omega), if_neg (by omega), if_pos (by omega)]
      · rw [if_neg h2]
        by_cases h1 : 24 ≤ c ∧ c < 24 + 23 ∧ c < fr.length
        · rw [if_pos h1, if_neg (by omega), if_pos (by omega)]
        · rw [if_neg h1]
          by_cases h0 : 0 ≤ c ∧ c < 0 + 24 ∧ c < fr.length
          · rw [if_pos h0, if_pos (by omega)]
          · rw [if_neg h0, if_neg (by omega), if_neg (by omega), if_neg (by omega),
              if_neg (by omega)]
  · rw [if_neg hc, if_neg (by omega), if_neg (by omega), if_neg (by omega), if_neg (by omega)]
    exact getD_of_length_le fr c (by omega)

/-! ## The loops of `mbe_demodulateAmbe3600x2450Data` -/

theorem scramble_eq (fr : List Nat) :
    mbe_demodulateAmbe3600x2450Data fr =
      ((List.range 23).reverse.foldl
        (fun (st : List Nat × Nat) j =>
          (st.1.set (1 * 24 + j) (st.1.getD (1 * 24 + j) 0 ^^^ (keystream fr).getD st.2 0),
            st.2 + 1))
        (fr, 1)).1 := rfl

theorem xor_loop (pr : List Nat) :
    ∀ (n : Nat) (fr : List Nat) (k0 : Nat),
      ((List.range n).reverse.foldl
          (fun (st : List Nat × Nat) j =>
            (st.1.set (1 * 24 + j) (st.1.getD (1 * 24 + j) 0 ^^^ pr.getD st.2 0), st.2 + 1))
          (fr, k0)).1.length = fr.length ∧
      ∀ c, ((List.range n).reverse.foldl
          (fun (st : List Nat × Nat) j =>
            (st.1.set (1 * 24 + j) (st.1.getD (1 * 24 + j) 0 ^^^ pr.getD st.2 0), st.2 + 1))
          (fr, k0)).1.getD c 0
        = if 24 ≤ c ∧ c < 24 + n ∧ c < fr.length
          then fr.getD c 0 ^^^ pr.getD (k0 + (24 + n - 1 - c)) 0 else fr.getD c 0 := by
  intro n
  induction n with
  | zero =>
    intro fr k0
    refine ⟨rfl, fun c => ?_⟩
    have : ¬ (24 ≤ c ∧ c < 24 + 0 ∧ c < fr.length) := by omega
    rw [if_neg this]
    rfl
  | succ n ih =>
    intro fr k0
    rw [range_succ_reverse, List.foldl_cons]
    obtain ⟨hl, hget⟩ := ih (fr.set (1 * 24 + n) (fr.getD (1 * 24 + n) 0 ^^^ pr.getD k0 0)) (k0 + 1)
    refine ⟨by rw [hl, List.length_set], fun c => ?_⟩
    rw [hget c, List.length_set, getD_set]
    have e24 : 1 * 24 + n = 24 + n := by omega
    rw [e24]
    by_cases h1 : 24 ≤ c ∧ c < 24 + n ∧ c < fr.length
    · have h2 : 24 ≤ c ∧ c < 24 + (n + 1) ∧ c < fr.length := by omega
      rw [if_pos h1, if_pos h2, if_neg (by omega)]
      have : k0 + 1 + (24 + n - 1 - c) = k0 + (24 + (n + 1) - 1 - c) := by omega
      rw [this]
    · rw [if_neg h1]
      by_cases h3 : 24 + n = c ∧ 24 + n < fr.length
      · have h2 : 24 ≤ c ∧ c < 24 + (n + 1) ∧ c < fr.length := by omega
        rw [if_pos h3, if_pos h2]
        have : k0 + (24 + (n + 1) - 1 - c) = k0 := by omega
        rw [this, h3.1]
      · have h2 : ¬ (24 ≤ c ∧ c < 24 + (n + 1) ∧ c < fr.length) := by omega
        rw [if_neg h3, if_neg h2]

theorem scramble_length (fr : List Nat) :
    (mbe_demodulateAmbe3600x2450Data fr).length = fr.length := by
  rw [scramble_eq]
  exact (xor_loop (keystream fr) 23 fr 1).1

theorem scramble_getD (fr : List Nat) (c : Nat) :
    (mbe_demodulateAmbe3600x2450Data fr).getD c 0 =
      if 24 ≤ c ∧ c < 47 ∧ c < fr.length
      then fr.getD c 0 ^^^ (keystream fr).getD (47 - c) 0 else fr.getD c 0 := by
  rw [scramble_eq, (xor_loop (keystream fr) 23 fr 1).2 c]
  by_cases h : 24 ≤ c ∧ c < 47 ∧ c < fr.length
  · rw [if_pos h, if_pos (by omega)]
    have : 1 + (24 + 23 - 1 - c) = 47 - c := by omega
    rw [this]
  · rw [if_neg h, if_neg (by omega)]

theorem foo_congr (fr1 fr2 : List Nat) (l : List Nat)
    (h : ∀ i, i ∈ l → fr1.getD (0 * 24 + i) 0 = fr2.getD (0 * 24 + i) 0) : ∀ acc,
    l.foldl (fun foo i => ((foo <<< 1) % 65536) ||| charLow16 (fr1.getD (0 * 24 + i) 0)) acc
      = l.foldl (fun foo i => ((foo <<< 1) % 65536) ||| charLow16 (fr2.getD (0 * 24 + i) 0)) acc := by
  induction l with
  | nil => intro acc; rfl
  | cons a l ih =>
    intro acc
    simp only [List.foldl_cons]
    rw [h a (List.mem_cons_self a l)]
    exact ih (fun i hi => h i (List.mem_cons_of_mem a hi)) _

theorem keystream_congr (fr1 fr2 : List Nat)
    (h : ∀ i, 12 ≤ i → i < 24 → fr1.getD i 0 = fr2.getD i 0) :
    keystream fr1 = keystream fr2 := by
  unfold keystream
  simp only []
  rw [foo_congr fr1 fr2 (List.range' 12 12).reverse]
  intro i hi
  rw [List.mem_reverse, List.mem_range'_1] at hi
  have : 0 * 24 + i = i := by omega
  rw [this]
  exact h i hi.1 (by omega)

theorem keystream_scramble (fr : List Nat) :
    keystream (mbe_demodulateAmbe3600x2450Data fr) = keystream fr := by
  apply keystream_congr
  intro i h1 h2
  rw [scramble_getD, if_neg (by omega)]

theorem scramble_involutive (M : List Nat) :
    mbe_demodulateAmbe3600x2450Data (mbe_demodulateAmbe3600x2450Data M) = M := by
  apply list_ext_getD
  · rw [scramble_length, scramble_length]
  · intro c _
    rw [scramble_getD, keystream_scramble, scramble_length, scramble_getD]
    by_cases h : 24 ≤ c ∧ c < 47 ∧ c < M.length
    · rw [if_pos h, if_pos h, Nat.xor_cancel_right]
    · rw [if_neg h, if_neg h]

/-! ### The keystream values -/

theorem lcg_loop : ∀ (n : Nat) (pr : List Nat), n < pr.length →
    ((List.range' 1 n).foldl
        (fun (pr : List Nat) i => pr.set i
          ((173 * pr.getD (i - 1) 0) + 13849
            - (65536 * (((173 * pr.getD (i - 1) 0) + 13849) / 65536)))) pr).length = pr.length ∧
    ∀ k, ((List.range' 1 n).foldl
        (fun (pr : List Nat) i => pr.set i
          ((173 * pr.getD (i - 1) 0) + 13849
            - (65536 * (((173 * pr.getD (i - 1) 0) + 13849) / 65536)))) pr).getD k 0
      = if 1 ≤ k ∧ k ≤ n then lcgSeq (pr.getD 0 0) k else pr.getD k 0 := by
  intro n
  induction n with
  | zero =>
    intro pr _
    refine ⟨rfl, fun k => ?_⟩
    rw [if_neg (by omega)]
    rfl
  | succ n ih =>
    intro pr hn
    obtain ⟨hl, hget⟩ := ih pr (by omega)
    rw [List.range'_concat, List.foldl_append, List.foldl_cons, List.foldl_nil]
    refine ⟨by rw [List.length_set, hl], fun k => ?_⟩
    rw [getD_set, hl]
    have e1 : 1 + 1 * n - 1 = n := by omega
    have e2 : 1 + 1 * n = n + 1 := by omega
    rw [e1, e2, hget n, hget k]
    have hprev : (if 1 ≤ n ∧ n ≤ n then lcgSeq (pr.getD 0 0) n else pr.getD n 0)
        = lcgSeq (pr.getD 0 0) n := by
      by_cases h0 : 1 ≤ n
      · rw [if_pos ⟨h0, Nat.le_refl n⟩]
      · have : n = 0 := by omega
        subst this
        rw [if_neg (by omega)]
        rfl
    rw [hprev]
    by_cases hk : n + 1 = k ∧ n + 1 < pr.length
    · rw [if_pos hk, if_pos (by omega), ← hk.1]
      show _ = (173 * lcgSeq (pr.getD 0 0) n + 13849) % 65536
      omega
    · rw [if_neg hk]
      by_cases h1 : 1 ≤ k ∧ k ≤ n
      · rw [if_pos h1, if_pos (by omega)]
      · rw [if_neg h1, if_neg (by omega)]

theorem div_loop : ∀ (n : Nat) (pr : List Nat), n < pr.length →
    ((List.range' 1 n).foldl
        (fun (pr : List Nat) i => pr.set i (pr.getD i 0 / 32768)) pr).length = pr.length ∧
    ∀ k, ((List.range' 1 n).foldl
        (fun (pr : List Nat) i => pr.set i (pr.getD i 0 / 32768)) pr).getD k 0
      = if 1 ≤ k ∧ k ≤ n then pr.getD k 0 / 32768 else pr.getD k 0 := by
  intro n
  induction n with
  | zero =>
    intro pr _
    refine ⟨rfl, fun k => ?_⟩
    rw [if_neg (by omega)]
    rfl
  | succ n ih =>
    intro pr hn
    obtain ⟨hl, hget⟩ := ih pr (by omega)
    rw [List.range'_concat, List.foldl_append, List.foldl_cons, List.foldl_nil]
    refine ⟨by rw [List.length_set, hl], fun k => ?_⟩
    rw [getD_set, hl]
    have e2 : 1 + 1 * n = n + 1 := by omega
    rw [e2, hget (n + 1), hget k, if_neg (show ¬ (1 ≤ n + 1 ∧ n + 1 ≤ n) by omega)]
    by_cases hk : n + 1 = k ∧ n + 1 < pr.length
    · rw [if_pos hk, if_pos (by omega), ← hk.1]
    · rw [if_neg hk]
      by_cases h1 : 1 ≤ k ∧ k ≤ n
      · rw [if_pos h1, if_pos (by omega)]
      · rw [if_neg h1, if_neg (by omega)]

theorem foo_loop (b : Nat → Nat) (N : Nat) (hb : ∀ i, i < N → b i ≤ 1) :
    ∀ n acc, n ≤ N → (acc + 1) * 2 ^ n ≤ 65536 →
    (List.range n).reverse.foldl
      (fun foo i => ((foo <<< 1) % 65536) ||| charLow16 (b i)) acc
      = acc * 2 ^ n + bitsValue b n := by
  intro n
  induction n with
  | zero => intro acc _ _; simp [bitsValue]
  | succ n ih =>
    intro acc hn hacc
    rw [range_succ_reverse, List.foldl_cons]
    have hbn := hb n (by omega)
    have hpos : 0 < 2 ^ n := Nat.two_pow_pos n
    have h2n : 2 ≤ 2 ^ (n + 1) := by rw [Nat.pow_succ]; omega
    have hacc2 : (acc + 1) * 2 ≤ 65536 :=
      Nat.le_trans (Nat.mul_le_mul_left (acc + 1) h2n) hacc
    have hc : charLow16 (b n) = b n := by
      unfold charLow16
      rw [if_pos (by omega)]
    have h1 : ((acc <<< 1) % 65536) ||| charLow16 (b n) = 2 * acc + b n := by
      rw [hc, Nat.shiftLeft_eq, Nat.mod_eq_of_lt (by omega), Nat.mul_comm]
      exact (Nat.mul_add_lt_is_or (i := 1) (by omega) acc).symm
    rw [h1, ih _ (by omega)]
    · simp only [bitsValue]
      rw [Nat.pow_succ]
      ring
    · have h2 : (2 * acc + b n + 1) * 2 ^ n ≤ (2 * acc + 2) * 2 ^ n :=
        Nat.mul_le_mul_right _ (by omega)
      have h3 : (2 * acc + 2) * 2 ^ n = (acc + 1) * 2 ^ (n + 1) := by
        rw [Nat.pow_succ]; ring
      omega

theorem foo_eq_row0Seed (M : List Nat) (hM : ∀ c, c < 96 → M.getD c 0 ≤ 1) :
    (List.range' 12 12).reverse.foldl
      (fun foo i => ((foo <<< 1) % 65536) ||| charLow16 (M.getD (0 * 24 + i) 0)) 0
      = row0Seed M := by
  have h := foo_loop (fun t => M.getD (0 * 24 + (12 + t)) 0) 12
    (fun i hi => hM _ (by omega)) 12 0 (Nat.le_refl 12) (by decide)
  rw [Nat.zero_mul (2 ^ 12), Nat.zero_add] at h
  have hfun : (fun t => M.getD (0 * 24 + (12 + t)) 0) = (fun t => M.getD (12 + t) 0) := by
    funext t
    congr 1
    omega
  rw [hfun] at h
  rw [List.range'_eq_map_range, ← List.map_reverse, List.foldl_map]
  exact h

theorem row0Seed_lt (M : List Nat) (hM : ∀ c, c < 96 → M.getD c 0 ≤ 1) :
    row0Seed M < 4096 := by
  have h : row0Seed M = bitsValue (fun t => if t < 12 then M.getD (12 + t) 0 else 0) 12 := by
    unfold row0Seed
    simp [bitsValue]
  rw [h]
  apply bitsValue_lt
  intro i
  show (if i < 12 then M.getD (12 + i) 0 else 0) ≤ 1
  split
  · exact hM _ (by omega)
  · omega

theorem keystream_getD (M : List Nat) (hM : ∀ c, c < 96 → M.getD c 0 ≤ 1) (k : Nat)
    (h1 : 1 ≤ k) (h2 : k ≤ 23) :
    (keystream M).getD k 0 = lcgSeq (16 * row0Seed M) k / 32768 := by
  unfold keystream
  simp only []
  rw [foo_eq_row0Seed M hM]
  have hs := row0Seed_lt M hM
  have hlen : ((List.replicate 115 0).set 0 ((16 * row0Seed M) % 65536)).length = 115 := by
    rw [List.length_set, List.length_replicate]
  obtain ⟨l1, g1⟩ := lcg_loop 23 ((List.replicate 115 0).set 0 ((16 * row0Seed M) % 65536))
    (by rw [hlen]; decide)
  obtain ⟨l2, g2⟩ := div_loop 23 _ (by rw [l1, hlen]; decide)
  rw [g2 k, if_pos ⟨h1, h2⟩, g1 k, if_pos ⟨h1, h2⟩, getD_set, if_pos ⟨rfl, by
    rw [List.length_replicate]; decide⟩, Nat.mod_eq_of_lt (by omega)]

theorem lcgSeq_lt (s : Nat) (k : Nat) (hk : 1 ≤ k) : lcgSeq s k < 65536 := by
  cases k with
  | zero => omega
  | succ k =>
    show (173 * lcgSeq s k + 13849) % 65536 < 65536
    exact Nat.mod_lt _ (by decide)

/-! ## The loop of `interleave` -/

theorem interleave_eq_pairs (M out : List Nat) :
    interleave M out
      = ((List.range 36).foldl (fun (st : List Nat × Nat) i =>
          appendBit (appendBit st (M.getD (rW.getD i 0 * 24 + rX.getD i 0) 0))
            (M.getD (rY.getD i 0 * 24 + rZ.getD i 0) 0)) (out, 0)).1 := rfl

theorem cellAddr_even (i : Nat) : cellAddr (2 * i) = rW.getD i 0 * 24 + rX.getD i 0 := by
  unfold cellAddr
  rw [if_pos (by omega)]
  have : 2 * i / 2 = i := by omega
  rw [this]

theorem cellAddr_odd (i : Nat) : cellAddr (2 * i + 1) = rY.getD i 0 * 24 + rZ.getD i 0 := by
  unfold cellAddr
  rw [if_neg (by omega)]
  have : (2 * i + 1) / 2 = i := by omega
  rw [this]

theorem pairs_eq_bits (s : Nat → Nat) : ∀ (n : Nat) (st : List Nat × Nat),
    (List.range n).foldl (fun (st : List Nat × Nat) i =>
        appendBit (appendBit st (s (2 * i))) (s (2 * i + 1))) st
      = ((List.range (2 * n)).map s).foldl appendBit st := by
  intro n
  induction n with
  | zero => intro st; rfl
  | succ n ih =>
    intro st
    have h2 : 2 * (n + 1) = (2 * n + 1) + 1 := by omega
    rw [List.range_succ, List.foldl_append, ih, h2, List.range_succ, List.range_succ,
      List.map_append, List.map_append, List.foldl_append, List.foldl_append]
    rfl

theorem interleave_eq_appendBits (M out : List Nat) :
    interleave M out
      = (((List.range 72).map (fun n => M.getD (cellAddr n) 0)).foldl appendBit (out, 0)).1 := by
  rw [interleave_eq_pairs]
  have h := pairs_eq_bits (fun n => M.getD (cellAddr n) 0) 36 (out, 0)
  simp only [cellAddr_even, cellAddr_odd] at h
  rw [h]

theorem append_value (x b : Nat) (hb : b ≤ 1) :
    ((x <<< 1) &&& 0xfe) ||| b = (2 * x) % 256 + b := by
  have h1 : (x <<< 1) &&& 0xfe = 2 * (x % 128) := by
    apply Nat.eq_of_testBit_eq
    intro i
    have h127 : x % 128 = x % 2 ^ 7 := rfl
    have h254 : (0xfe : Nat) = (2 ^ 7 - 1) <<< 1 := rfl
    rw [h127, Nat.mul_comm, ← Nat.shiftLeft_eq (x % 2 ^ 7) 1, h254]
    simp only [Nat.testBit_and, Nat.testBit_shiftLeft, Nat.testBit_mod_two_pow,
      Nat.testBit_two_pow_sub_one]
    cases decide (i ≥ 1) <;> cases x.testBit (i - 1) <;> simp
  rw [h1]
  have h2 := Nat.mul_add_lt_is_or (i := 1) (show b < 2 ^ 1 by omega) (x % 128)
  rw [Nat.pow_one] at h2
  rw [← h2]
  omega

theorem shr3 (k t : Nat) (ht : t < 8) : (8 * k + t) >>> 3 = k := by
  rw [Nat.shiftRight_eq_div_pow]
  omega

theorem appendBit_in_byte (out : List Nat) (k t x b : Nat) (ht : t < 8) (_hk : k < out.length)
    (hx : out.getD k 0 = x) (hb : b ≤ 1) :
    appendBit (out, 8 * k + t) b = (out.set k ((2 * x) % 256 + b), 8 * k + t + 1) := by
  unfold appendBit
  simp only []
  rw [shr3 k t ht, hx, append_value x b hb]

theorem byte_group (out : List Nat) (k : Nat) (b0 b1 b2 b3 b4 b5 b6 b7 : Nat)
    (hk : k < out.length) (h0 : b0 ≤ 1) (h1 : b1 ≤ 1) (h2 : b2 ≤ 1) (h3 : b3 ≤ 1)
    (h4 : b4 ≤ 1) (h5 : b5 ≤ 1) (h6 : b6 ≤ 1) (h7 : b7 ≤ 1) :
    [b0, b1, b2, b3, b4, b5, b6, b7].foldl appendBit (out, 8 * k)
      = (out.set k (128 * b0 + 64 * b1 + 32 * b2 + 16 * b3 + 8 * b4 + 4 * b5 + 2 * b6 + b7),
          8 * k + 8) := by
  simp only [List.foldl_cons, List.foldl_nil]
  have hs : ∀ (l : List Nat) (v : Nat), k < l.length → (l.set k v).getD k 0 = v := by
    intro l v hl
    rw [getD_set, if_pos ⟨rfl, hl⟩]
  have hl : ∀ (l : List Nat) (v : Nat), k < l.length → k < (l.set k v).length := by
    intro l v hl
    rw [List.length_set]; exact hl
  have e0 := appendBit_in_byte out k 0 _ b0 (by decide) hk rfl h0
  rw [Nat.add_zero] at e0
  rw [e0]
  rw [appendBit_in_byte _ k 1 _ b1 (by decide) (hl _ _ hk) (hs _ _ hk) h1, List.set_set]
  rw [appendBit_in_byte _ k 2 _ b2 (by decide) (hl _ _ hk) (hs _ _ hk) h2, List.set_set]
  rw [appendBit_in_byte _ k 3 _ b3 (by decide) (hl _ _ hk) (hs _ _ hk) h3, List.set_set]
  rw [appendBit_in_byte _ k 4 _ b4 (by decide) (hl _ _ hk) (hs _ _ hk) h4, List.set_set]
  rw [appendBit_in_byte _ k 5 _ b5 (by decide) (hl _ _ hk) (hs _ _ hk) h5, List.set_set]
  rw [appendBit_in_byte _ k 6 _ b6 (by decide) (hl _ _ hk) (hs _ _ hk) h6, List.set_set]
  rw [appendBit_in_byte _ k 7 _ b7 (by decide) (hl _ _ hk) (hs _ _ hk) h7, List.set_set]
  congr 2
  omega

theorem groups_loop (s : Nat → Nat) (out0 : List Nat) (hs : ∀ n, n < 8 * out0.length → s n ≤ 1) :
    ∀ n, n ≤ out0.length →
      ∃ out, ((List.range (8 * n)).map s).foldl appendBit (out0, 0) = (out, 8 * n) ∧
        out.length = out0.length ∧
        ∀ k, out.getD k 0 = if k < n then packByte s k else out0.getD k 0 := by
  intro n
  induction n with
  | zero =>
    intro _
    refine ⟨out0, rfl, rfl, fun k => ?_⟩
    rw [if_neg (by omega)]
  | succ n ih =>
    intro hn
    obtain ⟨out, hfold, hlen, hget⟩ := ih (by omega)
    have h8 : 8 * (n + 1) = 8 * n + 8 := by omega
    have hr : (List.range 8).map (fun x => 8 * n + x)
        = [8 * n, 8 * n + 1, 8 * n + 2, 8 * n + 3, 8 * n + 4, 8 * n + 5, 8 * n + 6, 8 * n + 7] := by
      rfl
    rw [h8, List.range_add, List.map_append, List.foldl_append, hfold, hr]
    simp only [List.map_cons, List.map_nil]
    rw [byte_group out n _ _ _ _ _ _ _ _ (by omega) (hs _ (by omega)) (hs _ (by omega))
      (hs _ (by omega)) (hs _ (by omega)) (hs _ (by omega)) (hs _ (by omega)) (hs _ (by omega))
      (hs _ (by omega))]
    refine ⟨_, rfl, by rw [List.length_set, hlen], fun k => ?_⟩
    rw [getD_set, hget k]
    by_cases hk : n = k ∧ n < out.length
    · rw [if_pos hk, if_pos (by omega), ← hk.1]
      rfl
    · rw [if_neg hk]
      by_cases hk2 : k < n
      · rw [if_pos hk2, if_pos (by omega)]
      · rw [if_neg hk2, if_neg (by omega)]

theorem interleave_spec (M out0 : List Nat) (hlen : out0.length = 9)
    (hM : ∀ n, n < 72 → M.getD (cellAddr n) 0 ≤ 1) :
    (interleave M out0).length = 9 ∧
    ∀ k, k < 9 → (interleave M out0).getD k 0 = packByte (fun n => M.getD (cellAddr n) 0) k := by
  obtain ⟨out, hfold, hl, hget⟩ := groups_loop (fun n => M.getD (cellAddr n) 0) out0
    (by intro n hn; exact hM n (by omega)) 9 (by omega)
  rw [interleave_eq_appendBits]
  have h72 : (8 * 9 : Nat) = 72 := rfl
  rw [h72] at hfold
  rw [hfold]
  refine ⟨by rw [hl, hlen], fun k hk => ?_⟩
  rw [hget k, if_pos hk]

theorem streamBit_of_packByte (data : List Nat) (s : Nat → Nat)
    (hs : ∀ n, n < 72 → s n ≤ 1)
    (hd : ∀ k, k < 9 → data.getD k 0 = packByte s k) (n : Nat) (hn : n < 72) :
    streamBit data n = s n := by
  unfold streamBit
  rw [hd (n / 8) (by omega), Nat.and_one_is_mod, Nat.shiftRight_eq_div_pow]
  unfold packByte
  have h0 := hs (8 * (n / 8)) (by omega)
  have h1 := hs (8 * (n / 8) + 1) (by omega)
  have h2 := hs (8 * (n / 8) + 2) (by omega)
  have h3 := hs (8 * (n / 8) + 3) (by omega)
  have h4 := hs (8 * (n / 8) + 4) (by omega)
  have h5 := hs (8 * (n / 8) + 5) (by omega)
  have h6 := hs (8 * (n / 8) + 6) (by omega)
  have h7 := hs (8 * (n / 8) + 7) (by omega)
  have hn8 : n = 8 * (n / 8) + n % 8 := by omega
  have ht : n % 8 < 8 := Nat.mod_lt _ (by decide)
  generalize n / 8 = k at *
  generalize n % 8 = t at *
  subst hn8
  interval_cases t <;> simp only [Nat.add_zero, Nat.sub_zero, Nat.reduceSub, Nat.reducePow] <;>
    omega

/-! ## The unpacking loop of `convert49BitTo72BitAMBE` -/

theorem and_two_pow_eq (x i : Nat) : x &&& 2 ^ i = (x.testBit i).toNat * 2 ^ i := by
  apply Nat.eq_of_testBit_eq
  intro j
  rw [Nat.testBit_and, Nat.testBit_two_pow]
  by_cases h : i = j
  · subst h
    cases hx : x.testBit i
    · simp
    · simp [Nat.testBit_two_pow_self]
  · cases hx : x.testBit i
    · simp [h]
    · simp [h, Nat.testBit_two_pow_of_ne h]

theorem mask_bit (x i : Nat) :
    (if x &&& (1 <<< i) ≠ 0 then 1 else 0) = (x >>> i) &&& 1 := by
  rw [Nat.one_shiftLeft, and_two_pow_eq, shiftRight_and_one]
  have hpos : 0 < 2 ^ i := Nat.two_pow_pos i
  cases x.testBit i
  · simp
  · have : (true.toNat * 2 ^ i) ≠ 0 := by
      simp only [Bool.toNat_true, Nat.one_mul]
      omega
    rw [if_pos this]
    rfl

theorem unpack_inner (inA : List Nat) : ∀ (n : Nat) (a : List Nat) (pos : Nat),
    ∃ a2, (List.range n).reverse.foldl (fun (st : List Nat × Nat) i =>
        let tmp := inA.getD (st.2 >>> 3) 0 &&& (1 <<< i)
        (st.1.set st.2 (if tmp ≠ 0 then 1 else 0), st.2 + 1)) (a, pos) = (a2, pos + n) ∧
      a2.length = a.length ∧
      ∀ c, a2.getD c 0 = if pos ≤ c ∧ c < pos + n ∧ c < a.length
        then (inA.getD (c >>> 3) 0 >>> (n - 1 - (c - pos))) &&& 1 else a.getD c 0 := by
  intro n
  induction n with
  | zero =>
    intro a pos
    refine ⟨a, rfl, rfl, fun c => ?_⟩
    rw [if_neg (by omega)]
  | succ n ih =>
    intro a pos
    obtain ⟨a2, h1, h2, h3⟩ :=
      ih (a.set pos (if inA.getD (pos >>> 3) 0 &&& (1 <<< n) ≠ 0 then 1 else 0)) (pos + 1)
    refine ⟨a2, ?_, by rw [h2, List.length_set], fun c => ?_⟩
    · rw [range_succ_reverse, List.foldl_cons]
      have e : pos + (n + 1) = pos + 1 + n := by omega
      rw [e]
      exact h1
    · rw [h3 c, List.length_set, getD_set, mask_bit]
      by_cases hc : pos + 1 ≤ c ∧ c < pos + 1 + n ∧ c < a.length
      · rw [if_pos hc, if_pos (by omega)]
        have : n - 1 - (c - (pos + 1)) = n + 1 - 1 - (c - pos) := by omega
        rw [this]
      · rw [if_neg hc]
        by_cases hp : pos = c ∧ pos < a.length
        · rw [if_pos hp, if_pos (by omega), ← hp.1]
          have : n + 1 - 1 - (pos - pos) = n := by omega
          rw [this]
        · rw [if_neg hp, if_neg (by omega)]

theorem unpack_outer (inA a : List Nat) : ∀ m : Nat,
    ∃ a2, (List.range m).foldl (fun st _ =>
        (List.range 8).reverse.foldl (fun (st : List Nat × Nat) i =>
          let tmp := inA.getD (st.2 >>> 3) 0 &&& (1 <<< i)
          (st.1.set st.2 (if tmp ≠ 0 then 1 else 0), st.2 + 1)) st) (a, 0) = (a2, 8 * m) ∧
      a2.length = a.length ∧
      ∀ c, a2.getD c 0 = if c < 8 * m ∧ c < a.length then streamBit inA c else a.getD c 0 := by
  intro m
  induction m with
  | zero =>
    refine ⟨a, rfl, rfl, fun c => ?_⟩
    rw [if_neg (by omega)]
  | succ m ih =>
    obtain ⟨a1, h1, h2, h3⟩ := ih
    obtain ⟨a2, k1, k2, k3⟩ := unpack_inner inA 8 a1 (8 * m)
    refine ⟨a2, ?_, by rw [k2, h2], fun c => ?_⟩
    · rw [List.range_succ m, List.foldl_append, h1, List.foldl_cons, List.foldl_nil]
      have e : 8 * (m + 1) = 8 * m + 8 := by omega
      rw [e]
      exact k1
    · rw [k3 c, h3 c, h2]
      by_cases hc : 8 * m ≤ c ∧ c < 8 * m + 8 ∧ c < a.length
      · rw [if_pos hc, if_pos (by omega)]
        unfold streamBit
        have e1 : c >>> 3 = c / 8 := by rw [Nat.shiftRight_eq_div_pow]
        have e2 : 8 - 1 - (c - 8 * m) = 7 - c % 8 := by omega
        rw [e1, e2]
      · rw [if_neg hc]
        by_cases hc2 : c < 8 * m ∧ c < a.length
        · rw [if_pos hc2, if_pos (by omega)]
        · rw [if_neg hc2, if_neg (by omega)]

theorem unpack_spec (inA a : List Nat) :
    (unpackBits inA a).length = a.length ∧
    ∀ c, (unpackBits inA a).getD c 0
      = if c < 56 ∧ c < a.length then streamBit inA c else a.getD c 0 := by
  obtain ⟨a2, h1, h2, h3⟩ := unpack_outer inA a 7
  unfold unpackBits
  rw [h1]
  exact ⟨h2, h3⟩

theorem streamBit_le_one (data : List Nat) (n : Nat) : streamBit data n ≤ 1 := by
  unfold streamBit
  rw [Nat.and_one_is_mod]
  omega

/-! ## The interleave tables -/

theorem tables_in_range : ∀ i, i < 36 →
    rW.getD i 0 < 4 ∧ rX.getD i 0 < 24 ∧ rY.getD i 0 < 4 ∧ rZ.getD i 0 < 24 := by
  decide

set_option maxRecDepth 100000 in
theorem tables_distinct : ∀ i, i < 36 → ∀ j, j < 36 →
    (rW.getD i 0 * 24 + rX.getD i 0 = rW.getD j 0 * 24 + rX.getD j 0 → i = j) ∧
    (rY.getD i 0 * 24 + rZ.getD i 0 = rY.getD j 0 * 24 + rZ.getD j 0 → i = j) ∧
    rW.getD i 0 * 24 + rX.getD i 0 ≠ rY.getD j 0 * 24 + rZ.getD j 0 := by
  decide

theorem cellAddr_lt : ∀ n, n < 72 → cellAddr n < 96 := by
  decide

set_option maxRecDepth 100000 in
theorem cellAddr_find : ∀ n, n < 72 →
    (List.range 72).find? (fun m => decide (cellAddr m = cellAddr n)) = some n := by
  decide

set_option maxRecDepth 100000 in
theorem cellAddr_cover : ∀ c, c < 96 →
    ((List.range 72).find? (fun n => decide (cellAddr n = c)) = none ∧
      (c = 47 ∨ (59 ≤ c ∧ c < 72) ∨ 86 ≤ c)) ∨
    ∃ n, n < 72 ∧ (List.range 72).find? (fun n => decide (cellAddr n = c)) = some n ∧
      cellAddr n = c := by
  decide

theorem cellAddr_injective (m n : Nat) (hm : m < 72) (hn : n < 72)
    (h : cellAddr m = cellAddr n) : m = n := by
  have h1 := cellAddr_find m hm
  have h2 := cellAddr_find n hn
  rw [h] at h1
  rw [h1] at h2
  exact Option.some.inj h2

theorem deinterleave_length (data : List Nat) : (deinterleave data).length = 96 := by
  unfold deinterleave
  rw [List.length_map, List.length_range]

theorem deinterleave_getD (data : List Nat) (c : Nat) (hc : c < 96) :
    (deinterleave data).getD c 0 =
      match (List.range 72).find? (fun n => decide (cellAddr n = c)) with
      | some n => streamBit data n
      | none => 0 := by
  unfold deinterleave
  rw [List.getD_eq_getElem?_getD, List.getElem?_map, List.getElem?_range hc]
  rfl

theorem deinterleave_cell (data : List Nat) (n : Nat) (hn : n < 72) :
    (deinterleave data).getD (cellAddr n) 0 = streamBit data n := by
  rw [deinterleave_getD data _ (cellAddr_lt n hn), cellAddr_find n hn]

/-! ## The data bits in the frame -/

theorem indicator_of_le_one (x : Nat) (hx : x ≤ 1) : (if x ≠ 0 then 1 else 0) = x := by
  split <;> omega

theorem toNat_decide_ite (q : Prop) [Decidable q] :
    (decide ((if q then (1 : Nat) else 0) = 1)).toNat = if q then 1 else 0 := by
  by_cases h : q <;> simp [h]

theorem golayCore_testBit (d p : Nat) (hp : p < 12) :
    (golayCore d).testBit p = d.testBit p := by
  unfold golayCore
  rw [Nat.testBit_or, Nat.testBit_shiftLeft]
  have : decide (p ≥ 12) = false := by simp; omega
  rw [this]
  simp

theorem c0Word_bit (bits : List Nat) (p : Nat) (hp : p < 12) :
    (c0Word bits >>> p) &&& 1 = if bits.getD p 0 ≠ 0 then 1 else 0 := by
  rw [shiftRight_and_one]
  unfold c0Word
  rw [Nat.testBit_or, Nat.testBit_shiftLeft, golay2312word_natCast _ (c0Data_lt bits),
    golayCore_testBit _ _ hp]
  have h23 : decide (p ≥ 23) = false := by simp; omega
  rw [h23]
  unfold c0Data
  rw [testBit_bitsValue _ (by intro i; show (if _ then 1 else 0) ≤ 1; split <;> omega) 12 p hp]
  rw [Bool.false_and, Bool.or_false]
  exact toNat_decide_ite _

theorem c1Word_bit (bits : List Nat) (p : Nat) (hp : p < 12) :
    (golay2312word (c1Data bits) >>> p) &&& 1 = if bits.getD (12 + p) 0 ≠ 0 then 1 else 0 := by
  rw [shiftRight_and_one, golay2312word_natCast _ (c1Data_lt bits), golayCore_testBit _ _ hp]
  unfold c1Data
  rw [testBit_bitsValue _ (by intro i; show (if _ then 1 else 0) ≤ 1; split <;> omega) 12 p hp]
  exact toNat_decide_ite _

theorem and_one_le (x : Nat) : x &&& 1 ≤ 1 := by
  rw [Nat.and_one_is_mod]
  omega

theorem xor_le_one (a b : Nat) (ha : a ≤ 1) (hb : b ≤ 1) : a ^^^ b ≤ 1 := by
  have := Nat.xor_lt_two_pow (n := 1) (x := a) (y := b) (by omega) (by omega)
  omega

/-- The frame built from a bit buffer whose entries are 0 or 1 has only 0/1 cells. -/
theorem frames_le_one (bits fr : List Nat) (hb : ∀ p, bits.getD p 0 ≤ 1)
    (hfr : ∀ c, fr.getD c 0 ≤ 1) (c : Nat) :
    (convert49BitAmbeTo72BitFrames bits fr).getD c 0 ≤ 1 := by
  rw [(frames_spec bits fr).2 c]
  split
  · split
    · exact and_one_le _
    · split
      · exact and_one_le _
      · split
        · exact hb _
        · split
          · exact hb _
          · exact hfr _
  · omega

theorem scramble_le_one (M : List Nat) (hM : ∀ c, M.getD c 0 ≤ 1) (c : Nat) :
    (mbe_demodulateAmbe3600x2450Data M).getD c 0 ≤ 1 := by
  rw [scramble_getD]
  split
  · rename_i h
    apply xor_le_one _ _ (hM c)
    rw [keystream_getD M (fun c _ => hM c) (47 - c) (by omega) (by omega)]
    have := lcgSeq_lt (16 * row0Seed M) (47 - c) (by omega)
    omega
  · exact hM c

theorem unpack_bits (inA : List Nat) (p : Nat) :
    (unpackBits inA (List.replicate 49 0)).getD p 0 = if p < 49 then streamBit inA p else 0 := by
  rw [(unpack_spec inA _).2 p, List.length_replicate]
  by_cases h : p < 49
  · rw [if_pos (by omega), if_pos h]
  · rw [if_neg (by omega), if_neg h, getD_replicate_zero]

theorem unpack_le_one (inA : List Nat) (p : Nat) :
    (unpackBits inA (List.replicate 49 0)).getD p 0 ≤ 1 := by
  rw [unpack_bits]
  split
  · exact streamBit_le_one _ _
  · omega

/-- Reading the data columns of the frame gives back the bit buffer. -/
theorem frames_readback (bits fr : List Nat) (hb : ∀ p, bits.getD p 0 ≤ 1)
    (hfr : fr.length = 96) (p : Nat) (hp : p < 49) :
    (if p < 12 then (convert49BitAmbeTo72BitFrames bits fr).getD (0 * 24 + (23 - p)) 0
      else if p < 24 then (convert49BitAmbeTo72BitFrames bits fr).getD (1 * 24 + (34 - p)) 0
      else if p < 35 then (convert49BitAmbeTo72BitFrames bits fr).getD (2 * 24 + (34 - p)) 0
      else (convert49BitAmbeTo72BitFrames bits fr).getD (3 * 24 + (48 - p)) 0)
      = bits.getD p 0 := by
  have hspec := (frames_spec bits fr).2
  by_cases h1 : p < 12
  · rw [if_pos h1, hspec, hfr, if_pos (by omega), if_pos (by omega)]
    have : 23 - (0 * 24 + (23 - p)) = p := by omega
    rw [this, c0Word_bit bits p h1, indicator_of_le_one _ (hb p)]
  · rw [if_neg h1]
    by_cases h2 : p < 24
    · rw [if_pos h2, hspec, hfr, if_pos (by omega), if_neg (by omega), if_pos (by omega)]
      have : 46 - (1 * 24 + (34 - p)) = p - 12 := by omega
      rw [this, c1Word_bit bits (p - 12) (by omega)]
      have : 12 + (p - 12) = p := by omega
      rw [this, indicator_of_le_one _ (hb p)]
    · rw [if_neg h2]
      by_cases h3 : p < 35
      · rw [if_pos h3, hspec, hfr, if_pos (by omega), if_neg (by omega), if_neg (by omega),
          if_pos (by omega)]
        congr 1
        omega
      · rw [if_neg h3, hspec, hfr, if_pos (by omega), if_neg (by omega), if_neg (by omega),
          if_neg (by omega), if_pos (by omega)]
        congr 1
        omega

/-! ## De-interleaving an interleaved frame -/

theorem deinterleave_interleave (S out0 : List Nat) (hS : S.length = 96)
    (hlen : out0.length = 9) (h01 : ∀ c, S.getD c 0 ≤ 1)
    (hz : ∀ c, (c = 47 ∨ (59 ≤ c ∧ c < 72) ∨ 86 ≤ c) → S.getD c 0 = 0) :
    deinterleave (interleave S out0) = S := by
  obtain ⟨_, hbytes⟩ := interleave_spec S out0 hlen (fun n _ => h01 _)
  apply list_ext_getD
  · rw [deinterleave_length, hS]
  · intro c hc
    rw [deinterleave_length] at hc
    rw [deinterleave_getD _ c hc]
    rcases cellAddr_cover c hc with ⟨hnone, hun⟩ | ⟨n, hn, hsome, hcell⟩
    · rw [hnone, hz c hun]
    · rw [hsome]
      show streamBit (interleave S out0) n = _
      rw [streamBit_of_packByte _ (fun n => S.getD (cellAddr n) 0) (fun n _ => h01 _) hbytes n hn,
        hcell]

theorem stages_frame_roundtrip (bits out0 : List Nat) (hb : ∀ p, bits.getD p 0 ≤ 1)
    (hlen : out0.length = 9) :
    mbe_demodulateAmbe3600x2450Data (deinterleave
        (interleave (mbe_demodulateAmbe3600x2450Data
          (convert49BitAmbeTo72BitFrames bits (List.replicate (24 * 4) 0))) out0))
      = convert49BitAmbeTo72BitFrames bits (List.replicate (24 * 4) 0) := by
  have hF01 := frames_le_one bits (List.replicate (24 * 4) 0) hb
    (fun c => by rw [getD_replicate_zero]; omega)
  have hFlen : (convert49BitAmbeTo72BitFrames bits (List.replicate (24 * 4) 0)).length = 96 := by
    rw [(frames_spec _ _).1, List.length_replicate]
  rw [deinterleave_interleave _ out0 (by rw [scramble_length, hFlen]) hlen
    (scramble_le_one _ hF01), scramble_involutive]
  intro c hc
  rw [scramble_getD, if_neg (by omega), (frames_spec _ _).2 c, List.length_replicate]
  split
  · rw [if_neg (by omega), if_neg (by omega), if_neg (by omega), if_neg (by omega),
      getD_replicate_zero]
  · rfl

/-- The three stages after the unpacking loop can be undone: from the frame they build
out of a buffer of 0/1 entries, `decode49` reads the entries `0 .. 48` back. -/
theorem decode49_stages (bits out0 : List Nat) (hb : ∀ p, bits.getD p 0 ≤ 1)
    (hlen : out0.length = 9) :
    decode49 (interleave (mbe_demodulateAmbe3600x2450Data
        (convert49BitAmbeTo72BitFrames bits (List.replicate (24 * 4) 0))) out0)
      = (List.range 49).map (fun p => bits.getD p 0) := by
  unfold decode49
  simp only []
  rw [stages_frame_roundtrip bits out0 hb hlen]
  apply List.map_congr_left
  intro p hp
  rw [List.mem_range] at hp
  exact frames_readback _ _ hb (by rw [List.length_replicate]) p hp

/-! ## Further lemmas for the stated properties -/

theorem stages_length (bits out0 : List Nat) (hb : ∀ p, bits.getD p 0 ≤ 1)
    (hlen : out0.length = 9) :
    (interleave (mbe_demodulateAmbe3600x2450Data
        (convert49BitAmbeTo72BitFrames bits (List.replicate (24 * 4) 0))) out0).length = 9 := by
  have hF01 := frames_le_one bits (List.replicate (24 * 4) 0) hb
    (fun c => by rw [getD_replicate_zero]; omega)
  exact (interleave_spec _ out0 hlen (fun n _ => scramble_le_one _ hF01 _)).1

theorem bitsValue_congr (b1 b2 : Nat → Nat) : ∀ n, (∀ i, i < n → b1 i = b2 i) →
    bitsValue b1 n = bitsValue b2 n := by
  intro n
  induction n with
  | zero => intro _; rfl
  | succ n ih =>
    intro h
    simp only [bitsValue]
    rw [ih (fun i hi => h i (by omega)), h n (by omega)]

theorem bitsValue_bits (x n : Nat) (hx : x < 2 ^ n) :
    bitsValue (fun i => (x >>> i) &&& 1) n = x := by
  have hb : ∀ i, (fun i => (x >>> i) &&& 1) i ≤ 1 := fun i => and_one_le _
  apply Nat.eq_of_testBit_eq
  intro i
  by_cases hi : i < n
  · rw [testBit_bitsValue _ hb n i hi]
    show decide ((x >>> i) &&& 1 = 1) = x.testBit i
    rw [shiftRight_and_one]
    cases x.testBit i <;> rfl
  · have hle : 2 ^ n ≤ 2 ^ i := Nat.pow_le_pow_right (by decide) (by omega)
    rw [Nat.testBit_lt_two_pow (Nat.lt_of_lt_of_le (bitsValue_lt _ hb n) hle),
      Nat.testBit_lt_two_pow (Nat.lt_of_lt_of_le hx hle)]

theorem c0Word_eq (bits : List Nat) :
    c0Word bits = 2 ^ 23 * parity (golayCore (c0Data bits)) + golayCore (c0Data bits) := by
  unfold c0Word
  rw [golay2312word_natCast _ (c0Data_lt bits), Nat.lor_comm, Nat.shiftLeft_eq, Nat.mul_comm]
  exact (Nat.mul_add_lt_is_or (i := 23) (golayCore_lt _ (c0Data_lt bits))
    (parity (golayCore (c0Data bits)))).symm

theorem c0Word_lt (bits : List Nat) : c0Word bits < 2 ^ 24 := by
  rw [c0Word_eq]
  have h1 := parity_le_one (golayCore (c0Data bits))
  have h2 := golayCore_lt _ (c0Data_lt bits)
  omega

theorem rowValue_frames (bits fr : List Nat) (hfr : fr.length = 96) :
    rowValue (convert49BitAmbeTo72BitFrames bits fr) 0 = c0Word bits := by
  unfold rowValue
  rw [bitsValue_congr _ (fun i => (c0Word bits >>> i) &&& 1) 24]
  · exact bitsValue_bits _ 24 (c0Word_lt bits)
  · intro i hi
    show (convert49BitAmbeTo72BitFrames bits fr).getD (0 * 24 + (23 - i)) 0 = _
    rw [(frames_spec bits fr).2, hfr, if_pos (by omega), if_pos (by omega)]
    have : 23 - (0 * 24 + (23 - i)) = i := by omega
    rw [this]

theorem c0Word_top (bits : List Nat) :
    (c0Word bits >>> 23) &&& 1 = parity (golayCore (c0Data bits)) := by
  rw [c0Word_eq, Nat.and_one_is_mod, Nat.shiftRight_eq_div_pow]
  have h1 := parity_le_one (golayCore (c0Data bits))
  have h2 := golayCore_lt _ (c0Data_lt bits)
  omega

theorem bitCount_succ (w n : Nat) : bitCount (w + 1) n = bitCount w n + n / 2 ^ w % 2 := rfl

theorem parity_c0Word (bits : List Nat) : parity (c0Word bits) = 0 := by
  have hg := golayCore_lt _ (c0Data_lt bits)
  have hP := parity_eq_bitCount (golayCore (c0Data bits))
  have hP1 := parity_le_one (golayCore (c0Data bits))
  rw [parity_eq_bitCount, c0Word_eq]
  generalize golayCore (c0Data bits) = g at *
  generalize parity g = P at *
  have e24 : (24 : Nat) = 23 + 1 := rfl
  rw [e24, bitCount_succ] at hP ⊢
  have h1 : bitCount 23 (2 ^ 23 * P + g) = bitCount 23 g := by
    rw [← bitCount_mod 23 (2 ^ 23 * P + g)]
    congr 1
    rw [Nat.mul_add_mod]
    exact Nat.mod_eq_of_lt hg
  rw [h1]
  omega

theorem bitCount_one_shiftLeft : ∀ k, k < 24 → bitCount 24 (1 <<< k) = 1 := by
  decide

theorem parity_flip (w k : Nat) (hw : parity w = 0) (hk : k < 24) :
    parity (w ^^^ (1 <<< k)) = 1 := by
  rw [parity_eq_bitCount] at hw ⊢
  rw [bitCount_xor_mod, bitCount_one_shiftLeft k hk]
  omega

set_option maxRecDepth 100000 in
theorem byte_bits : ∀ x, x < 256 →
    128 * ((x >>> (7 - 0)) &&& 1) + 64 * ((x >>> (7 - 1)) &&& 1) + 32 * ((x >>> (7 - 2)) &&& 1)
      + 16 * ((x >>> (7 - 3)) &&& 1) + 8 * ((x >>> (7 - 4)) &&& 1) + 4 * ((x >>> (7 - 5)) &&& 1)
      + 2 * ((x >>> (7 - 6)) &&& 1) + ((x >>> (7 - 7)) &&& 1) = x := by
  decide

/-! ## The unpacking loop with its bounds checked -/

theorem foldl_bind_none {α ι : Type} (f : α → ι → Option α) (l : List ι) :
    l.foldl (fun (st : Option α) i => st.bind (fun st => f st i)) none = none := by
  induction l with
  | nil => rfl
  | cons i l ih => exact ih

theorem foldl_foldl_bind_none {α ι κ : Type} (f : α → ι → Option α) (l : List ι)
    (js : List κ) :
    js.foldl (fun (st : Option α) _ =>
      l.foldl (fun (st : Option α) i => st.bind (fun st => f st i)) st) none = none := by
  induction js with
  | nil => rfl
  | cons j js ih =>
    rw [List.foldl_cons, foldl_bind_none]
    exact ih

theorem unpack_inner_state (inA : List Nat) : ∀ (l : List Nat) (buf : List Nat) (pos : Nat),
    ∃ buf2,
      l.foldl (fun (st : List Nat × Nat) i =>
          let tmp := inA.getD (st.2 >>> 3) 0 &&& (1 <<< i)
          (st.1.set st.2 (if tmp ≠ 0 then 1 else 0), st.2 + 1)) (buf, pos)
        = (buf2, pos + l.length) ∧
      buf2.length = buf.length := by
  intro l
  induction l with
  | nil =>
    intro buf pos
    exact ⟨buf, rfl, rfl⟩
  | cons i l ih =>
    intro buf pos
    obtain ⟨buf2, h1, h2⟩ :=
      ih (buf.set pos (if inA.getD (pos >>> 3) 0 &&& (1 <<< i) ≠ 0 then 1 else 0)) (pos + 1)
    rw [List.length_set] at h2
    refine ⟨buf2, ?_, h2⟩
    have e : pos + (i :: l).length = pos + 1 + l.length := by
      rw [List.length_cons]; omega
    rw [List.foldl_cons, e]
    exact h1

theorem unpack_inner_checked (inA : List Nat) : ∀ (l : List Nat) (buf : List Nat) (pos : Nat),
    pos ≤ buf.length →
      l.foldl (fun (st : Option (List Nat × Nat)) i =>
          st.bind (fun st =>
            let tmp := inA.getD (st.2 >>> 3) 0 &&& (1 <<< i)
            if st.2 < st.1.length
            then some (st.1.set st.2 (if tmp ≠ 0 then 1 else 0), st.2 + 1)
            else none)) (some (buf, pos))
        = if pos + l.length ≤ buf.length
          then some (l.foldl (fun (st : List Nat × Nat) i =>
            let tmp := inA.getD (st.2 >>> 3) 0 &&& (1 <<< i)
            (st.1.set st.2 (if tmp ≠ 0 then 1 else 0), st.2 + 1)) (buf, pos))
          else none := by
  intro l
  induction l with
  | nil =>
    intro buf pos hpos
    rw [List.length_nil, Nat.add_zero, if_pos hpos]
    rfl
  | cons i l ih =>
    intro buf pos hpos
    rw [List.foldl_cons, List.foldl_cons]
    by_cases hlt : pos < buf.length
    · have hstep : (some (buf, pos)).bind (fun (st : List Nat × Nat) =>
          let tmp := inA.getD (st.2 >>> 3) 0 &&& (1 <<< i)
          if st.2 < st.1.length
          then some (st.1.set st.2 (if tmp ≠ 0 then 1 else 0), st.2 + 1)
          else none)
          = some (buf.set pos (if inA.getD (pos >>> 3) 0 &&& (1 <<< i) ≠ 0 then 1 else 0),
              pos + 1) := by
        show (if pos < buf.length then _ else _) = _
        rw [if_pos hlt]
      rw [hstep, ih _ (pos + 1) (by rw [List.length_set]; omega), List.length_set]
      by_cases hle : pos + 1 + l.length ≤ buf.length
      · have hc : pos + (i :: l).length ≤ buf.length := by rw [List.length_cons]; omega
        rw [if_pos hle, if_pos hc]
      · have hc : ¬ pos + (i :: l).length ≤ buf.length := by rw [List.length_cons]; omega
        rw [if_neg hle, if_neg hc]
    · have hstep : (some (buf, pos)).bind (fun (st : List Nat × Nat) =>
          let tmp := inA.getD (st.2 >>> 3) 0 &&& (1 <<< i)
          if st.2 < st.1.length
          then some (st.1.set st.2 (if tmp ≠ 0 then 1 else 0), st.2 + 1)
          else none) = none := by
        show (if pos < buf.length then _ else _) = _
        rw [if_neg hlt]
      have hc : ¬ pos + (i :: l).length ≤ buf.length := by rw [List.length_cons]; omega
      rw [hstep, if_neg hc]
      exact foldl_bind_none _ l

theorem unpack_outer_checked (inA : List Nat) (is : List Nat) :
    ∀ (js : List Nat) (buf : List Nat) (pos : Nat), pos ≤ buf.length →
      js.foldl (fun st _ => is.foldl (fun (st : Option (List Nat × Nat)) i =>
          st.bind (fun st =>
            let tmp := inA.getD (st.2 >>> 3) 0 &&& (1 <<< i)
            if st.2 < st.1.length
            then some (st.1.set st.2 (if tmp ≠ 0 then 1 else 0), st.2 + 1)
            else none)) st) (some (buf, pos))
        = if pos + js.length * is.length ≤ buf.length
          then some (js.foldl (fun st _ => is.foldl (fun (st : List Nat × Nat) i =>
            let tmp := inA.getD (st.2 >>> 3) 0 &&& (1 <<< i)
            (st.1.set st.2 (if tmp ≠ 0 then 1 else 0), st.2 + 1)) st) (buf, pos))
          else none := by
  intro js
  induction js with
  | nil =>
    intro buf pos hpos
    rw [List.length_nil, Nat.zero_mul, Nat.add_zero, if_pos hpos]
    rfl
  | cons j js ih =>
    intro buf pos hpos
    have e : (j :: js).length * is.length = is.length + js.length * is.length := by
      rw [List.length_cons, Nat.add_mul, Nat.one_mul, Nat.add_comm]
    rw [List.foldl_cons, List.foldl_cons, unpack_inner_checked inA is buf pos hpos, e]
    obtain ⟨buf2, h1, h2⟩ := unpack_inner_state inA is buf pos
    by_cases hle : pos + is.length ≤ buf.length
    · rw [if_pos hle, h1, ih buf2 (pos + is.length) (by omega), h2]
      by_cases hle2 : pos + is.length + js.length * is.length ≤ buf.length
      · have hc : pos + (is.length + js.length * is.length) ≤ buf.length := by omega
        rw [if_pos hle2, if_pos hc]
      · have hc : ¬ pos + (is.length + js.length * is.length) ≤ buf.length := by omega
        rw [if_neg hle2, if_neg hc]
    · have hc : ¬ pos + (is.length + js.length * is.length) ≤ buf.length := by omega
      rw [if_neg hle, if_neg hc]
      exact foldl_foldl_bind_none _ is js

/-- The checked loop completes exactly when the buffer has room for all 56 stores, and
then gives what `unpackBits` gives. -/
theorem unpackBitsChecked_eq (inAmbe49 ambe49bits : List Nat) :
    unpackBitsChecked inAmbe49 ambe49bits
      = if 56 ≤ ambe49bits.length then some (unpackBits inAmbe49 ambe49bits) else none := by
  unfold unpackBitsChecked unpackBits
  rw [unpack_outer_checked inAmbe49 (List.range 8).reverse (List.range 7) ambe49bits 0
    (Nat.zero_le _)]
  have e : 0 + (List.range 7).length * (List.range 8).reverse.length = 56 := by
    rw [List.length_reverse, List.length_range, List.length_range]
  rw [e]
  split <;> rfl

theorem unpackBitsChecked_49 (inAmbe49 ambe49bits : List Nat) (h : ambe49bits.length = 49) :
    unpackBitsChecked inAmbe49 ambe49bits = none := by
  rw [unpackBitsChecked_eq, if_neg (by omega)]

theorem convert_eq_none (inAmbe49 outAmbe72 : List Nat) :
    convert49BitTo72BitAMBE inAmbe49 outAmbe72 = none := by
  unfold convert49BitTo72BitAMBE
  simp only []
  rw [unpackBitsChecked_49 _ _ (List.length_replicate _ _)]
  rfl

/-! ## The stages after the unpacking loop -/

theorem getD_le_one_of_forall (l : List Nat) (h : ∀ x ∈ l, x ≤ 1) (p : Nat) :
    l.getD p 0 ≤ 1 := by
  rw [List.getD_eq_getElem?_getD]
  by_cases hp : p < l.length
  · rw [List.getElem?_eq_getElem hp]
    exact h _ (List.getElem_mem hp)
  · rw [List.getElem?_eq_none (by omega)]
    exact Nat.zero_le 1

/-- The frame builder reads entries `0 .. 48` of the bit buffer and no other. -/
theorem frames_congr (bits1 bits2 fr : List Nat)
    (h : ∀ p, p < 49 → bits1.getD p 0 = bits2.getD p 0) :
    convert49BitAmbeTo72BitFrames bits1 fr = convert49BitAmbeTo72BitFrames bits2 fr := by
  have h0 : c0Data bits1 = c0Data bits2 := by
    unfold c0Data
    apply bitsValue_congr
    intro i hi
    show (if bits1.getD i 0 ≠ 0 then 1 else 0) = (if bits2.getD i 0 ≠ 0 then 1 else 0)
    rw [h i (by omega)]
  have h1 : c1Data bits1 = c1Data bits2 := by
    unfold c1Data
    apply bitsValue_congr
    intro i hi
    show (if bits1.getD (12 + i) 0 ≠ 0 then 1 else 0)
      = (if bits2.getD (12 + i) 0 ≠ 0 then 1 else 0)
    rw [h (12 + i) (by omega)]
  have hw : c0Word bits1 = c0Word bits2 := by
    unfold c0Word
    rw [h0]
  apply list_ext_getD
  · rw [(frames_spec bits1 fr).1, (frames_spec bits2 fr).1]
  · intro c _
    rw [(frames_spec bits1 fr).2 c, (frames_spec bits2 fr).2 c, hw, h1,
      h (34 - (c - 48)) (by omega), h (48 - (c - 72)) (by omega)]

theorem ProcessAmbe49_seven (a : List Nat) (ha : a.length = 7) :
    ProcessAmbe49 (some a) = Outcome.undefinedBehaviour := by
  rw [ProcessAmbe49, if_neg (by omega)]
  dsimp only
  rw [convert_eq_none]

/-! ## The stated properties -/

/-- Claim C1, the code evaluated. `convert49BitTo72BitAMBE` has no defined result on the
7-byte input `12 34 56 78 9a bc de`, nor on `12 34 56 78 9a bc 5e`, which differs from it
in bit 48, nor on any other input: the unpacking loop stores past the end of its 49-entry
bit array before the frame is built, so there are no two frames to tell apart. The three
stages that follow the loop do what the claim describes when they are handed 49 bits: for
every buffer `bits` of 0/1 values, `decode49` (de-interleave, apply the keystream derived
from row 0 again, read the data columns) returns entries `0 .. 48` of `bits` from the
9 bytes the stages produce. -/
theorem convert49BitTo72BitAMBE_no_frame :
    convert49BitTo72BitAMBE [0x12, 0x34, 0x56, 0x78, 0x9a, 0xbc, 0xde] (List.replicate 9 0)
      = none ∧
    convert49BitTo72BitAMBE [0x12, 0x34, 0x56, 0x78, 0x9a, 0xbc, 0x5e] (List.replicate 9 0)
      = none ∧
    (∀ inAmbe49 outAmbe72 : List Nat, convert49BitTo72BitAMBE inAmbe49 outAmbe72 = none) ∧
    (∀ bits outAmbe72 : List Nat, (∀ p, bits.getD p 0 ≤ 1) → outAmbe72.length = 9 →
      decode49 (interleave (mbe_demodulateAmbe3600x2450Data
          (convert49BitAmbeTo72BitFrames bits (List.replicate (24 * 4) 0))) outAmbe72)
        = (List.range 49).map (fun p => bits.getD p 0)) :=
  ⟨convert_eq_none _ _, convert_eq_none _ _, convert_eq_none, decode49_stages⟩

theorem convert49BitTo72BitAMBE_no_frame_witness :
    convert49BitTo72BitAMBE [0x12, 0x34, 0x56, 0x78, 0x9a, 0xbc, 0xde] (List.replicate 9 0)
      = none ∧
    decode49 (interleave (mbe_demodulateAmbe3600x2450Data
        (convert49BitAmbeTo72BitFrames
          [0, 0, 0, 1, 0, 0, 1, 0, 0, 0, 1, 1, 0, 1, 0, 0, 0, 1, 0, 1, 0, 1, 1, 0, 0, 1, 1, 1,
            1, 0, 0, 0, 1, 0, 0, 1, 1, 0, 1, 0, 1, 0, 1, 1, 1, 1, 0, 0, 1]
          (List.replicate (24 * 4) 0))) (List.replicate 9 0))
      = (List.range 49).map (fun p =>
          [0, 0, 0, 1, 0, 0, 1, 0, 0, 0, 1, 1, 0, 1, 0, 0, 0, 1, 0, 1, 0, 1, 1, 0, 0, 1, 1, 1,
            1, 0, 0, 0, 1, 0, 0, 1, 1, 0, 1, 0, 1, 0, 1, 1, 1, 1, 0, 0, 1].getD p 0) :=
  ⟨convert49BitTo72BitAMBE_no_frame.1,
    convert49BitTo72BitAMBE_no_frame.2.2.2 _ _
      (getD_le_one_of_forall _ (by decide)) rfl⟩

/-- Claim C2, the code evaluated. `ProcessAmbe49` throws its `ArgumentException` exactly
when the input is null or its length is not 7, as the claim says. On a 7-byte input, such
as `01 02 03 04 05 06 07`, it allocates the 9-byte array and calls
`convert49BitTo72BitAMBE`, whose unpacking loop stores past the end of its 49-entry bit
array: the call has no defined outcome, so it is not established that it returns an
array. The stages after the loop keep the length of the 9-byte array they write to. -/
theorem ProcessAmbe49_outcome :
    ProcessAmbe49 (some [1, 2, 3, 4, 5, 6, 7]) = Outcome.undefinedBehaviour ∧
    (∀ a : List Nat, a.length = 7 → ProcessAmbe49 (some a) = Outcome.undefinedBehaviour) ∧
    (∀ inAmbe49 : Option (List Nat),
      (∃ e, ProcessAmbe49 inAmbe49 = Outcome.thrown e) ↔
        (inAmbe49 = none ∨ ∃ a, inAmbe49 = some a ∧ a.length ≠ 7)) ∧
    (∀ bits : List Nat, (∀ p, bits.getD p 0 ≤ 1) →
      (interleave (mbe_demodulateAmbe3600x2450Data
        (convert49BitAmbeTo72BitFrames bits (List.replicate (24 * 4) 0)))
        (List.replicate 9 0)).length = 9) := by
  refine ⟨ProcessAmbe49_seven _ rfl, ProcessAmbe49_seven, ?_,
    fun bits hb => stages_length bits _ hb rfl⟩
  intro inAmbe49
  cases inAmbe49 with
  | none => exact ⟨fun _ => Or.inl rfl, fun _ => ⟨_, rfl⟩⟩
  | some a =>
    by_cases h : a.length ≠ 7
    · constructor
      · intro _
        exact Or.inr ⟨a, rfl, h⟩
      · intro _
        refine ⟨ArgumentException.mk "Input AMBE must be 7 bytes (49 bits).", ?_⟩
        rw [ProcessAmbe49, if_pos h]
    · constructor
      · rintro ⟨e, he⟩
        rw [ProcessAmbe49_seven a (by omega)] at he
        cases he
      · rintro (h0 | ⟨b, hb, hlen⟩)
        · cases h0
        · cases hb
          exact absurd hlen h

theorem ProcessAmbe49_outcome_witness :
    ProcessAmbe49 (some [0x12, 0x34, 0x56, 0x78, 0x9a, 0xbc, 0xde])
      = Outcome.undefinedBehaviour ∧
    ((∃ e, ProcessAmbe49 (some [1, 2, 3]) = Outcome.thrown e) ↔
      ((some [1, 2, 3] : Option (List Nat)) = none ∨
        ∃ a, some [1, 2, 3] = some a ∧ a.length ≠ 7)) :=
  ⟨ProcessAmbe49_outcome.2.1 _ rfl, ProcessAmbe49_outcome.2.2.1 (some [1, 2, 3])⟩

/-- Claim C3. The code generated by `golay2312word` has minimum distance at least 7:
the codewords of two distinct 12-bit values differ in at least 7 of their 23 bit
positions; hence a codeword hit by an error pattern `e` of at most 3 set bits is the
only codeword within Hamming distance 3 of the received word. -/
theorem golay2312word_min_distance :
    (∀ d1 d2 : Nat, d1 < 4096 → d2 < 4096 → d1 ≠ d2 →
      7 ≤ hammingDist (golay2312word d1) (golay2312word d2)) ∧
    (∀ d d2 e : Nat, d < 4096 → d2 < 4096 → e < 2 ^ 23 → bitCount 23 e ≤ 3 →
      hammingDist (golay2312word d ^^^ e) (golay2312word d2) ≤ 3 →
      d2 = d ∧ golay2312word d2 = golay2312word d) := by
  constructor
  · intro d1 d2 h1 h2 hne
    rw [golay2312word_natCast d1 h1, golay2312word_natCast d2 h2]
    exact golayCore_dist d1 d2 h1 h2 hne
  · intro d d2 e h1 h2 _ he hd
    rw [golay2312word_natCast d h1, golay2312word_natCast d2 h2] at hd
    have := golayCore_unique d d2 e h1 h2 he hd
    exact ⟨this, by rw [this]⟩

theorem golay2312word_min_distance_witness :
    7 ≤ hammingDist (golay2312word (1 : Nat)) (golay2312word (2 : Nat)) ∧
    ((5 : Nat) = 5 ∧ golay2312word (5 : Nat) = golay2312word (5 : Nat)) :=
  ⟨golay2312word_min_distance.1 1 2 (by decide) (by decide) (by decide),
    golay2312word_min_distance.2 5 5 0x410002 (by decide) (by decide) (by decide)
      (by decide) (by decide)⟩

/-- Claim C4. `golay2312word` is systematic: for every integer `cw` the result is below
`2 ^ 23` and its low 12 bits are `cw AND 0xFFF`, so the 11 check bits sit above the
data. -/
theorem golay2312word_systematic (cw : Int) :
    golay2312word cw < 2 ^ 23 ∧
    ((golay2312word cw &&& 0xFFF : Nat) : Int) = Int.land cw 0xFFF ∧
    golay2312word cw >>> 12 < 2 ^ 11 := by
  have hm := land_mask_lt cw
  have hnn : (0 : Int) ≤ Int.land cw 0xFFF := by
    cases cw with
    | ofNat m => exact Int.ofNat_nonneg _
    | negSucc m => exact Int.ofNat_nonneg _
  rw [golay2312word_eq]
  refine ⟨golayCore_lt _ hm, ?_, ?_⟩
  · rw [golayCore_low _ hm]
    exact Int.toNat_of_nonneg hnn
  · have := golayCore_lt _ hm
    rw [Nat.shiftRight_eq_div_pow]
    omega

/-- Claim C5. For a codeword below `2 ^ 24`, `parity cw` is the number of set bits of
`cw` modulo 2, `Parity` computes the same value, and the result is 0 or 1. -/
theorem parity_is_bit_parity (cw : Nat) (h : cw < 2 ^ 24) :
    parity cw = bitCount 24 cw % 2 ∧ Parity cw = parity cw ∧
    (parity cw = 0 ∨ parity cw = 1) := by
  have _ := h
  refine ⟨parity_eq_bitCount cw, rfl, ?_⟩
  have := parity_le_one cw
  omega

theorem parity_is_bit_parity_witness :
    parity 0xABCDEF = bitCount 24 0xABCDEF % 2 ∧ Parity 0xABCDEF = parity 0xABCDEF ∧
    (parity 0xABCDEF = 0 ∨ parity 0xABCDEF = 1) :=
  parity_is_bit_parity 0xABCDEF (by decide)

/-- Claim C6. The 24-bit value `w` that `convert49BitAmbeTo72BitFrames` stores in row 0
is the Golay codeword of the C0 data with the parity of that codeword as top bit
(row 0 column 0), so `parity w = 0`; and flipping any one of the 24 bits of `w` gives
parity 1. -/
theorem c0_field_parity (inAmbe49bits ambe_frOut : List Nat) (hfr : ambe_frOut.length = 96) :
    rowValue (convert49BitAmbeTo72BitFrames inAmbe49bits ambe_frOut) 0
      = golay2312word (c0Data inAmbe49bits)
        ||| (parity (golay2312word (c0Data inAmbe49bits)) <<< 23) ∧
    (convert49BitAmbeTo72BitFrames inAmbe49bits ambe_frOut).getD (0 * 24 + 0) 0
      = parity (golay2312word (c0Data inAmbe49bits)) ∧
    parity (rowValue (convert49BitAmbeTo72BitFrames inAmbe49bits ambe_frOut) 0) = 0 ∧
    ∀ k, k < 24 →
      parity (rowValue (convert49BitAmbeTo72BitFrames inAmbe49bits ambe_frOut) 0
        ^^^ (1 <<< k)) = 1 := by
  have hrow := rowValue_frames inAmbe49bits ambe_frOut hfr
  have hpar := parity_c0Word inAmbe49bits
  refine ⟨hrow, ?_, ?_, ?_⟩
  · rw [(frames_spec _ _).2, hfr, if_pos (by decide), if_pos (by decide)]
    rw [golay2312word_natCast _ (c0Data_lt _)]
    exact c0Word_top inAmbe49bits
  · rw [hrow]; exact hpar
  · intro k hk
    rw [hrow]
    exact parity_flip _ k hpar hk

theorem c0_field_parity_witness :
    parity (rowValue (convert49BitAmbeTo72BitFrames
      [1, 0, 1, 1, 0, 0, 1, 0, 1, 1, 1, 0, 0, 1, 0, 1, 1, 0, 1, 0, 0, 1, 1, 0, 1,
        0, 0, 0, 1, 1, 0, 1, 0, 1, 1, 1, 0, 0, 1, 0, 1, 0, 1, 1, 0, 0, 1, 0, 1]
      (List.replicate 96 0)) 0) = 0 :=
  (c0_field_parity _ (List.replicate 96 0) rfl).2.2.1

/-- Claim C7. The scrambler is an involution: applying
`mbe_demodulateAmbe3600x2450Data` twice to a frame gives the frame back, row 1
included. -/
theorem mbe_demodulate_twice (M : List Nat) :
    mbe_demodulateAmbe3600x2450Data (mbe_demodulateAmbe3600x2450Data M) = M :=
  scramble_involutive M

/-- Claim C8. For a 4x24 frame `M` of 0/1 cells, with `s_0 = 16 * v` where `v` is the
value of row 0 columns 12 .. 23 (column 23 most significant) and
`s_k = (173 * s_(k-1) + 13849) mod 65536`, the scrambler turns row 1 column `23 - k`
into its old value XOR `s_k / 32768`, for every `k` in `1 .. 23`; each `s_k` is below
`65536` and `s_k / 32768` is 0 or 1. -/
theorem mbe_demodulate_keystream (M : List Nat) (hlen : M.length = 96)
    (hM : ∀ c, c < 96 → M.getD c 0 ≤ 1) (k : Nat) (h1 : 1 ≤ k) (h23 : k ≤ 23) :
    (mbe_demodulateAmbe3600x2450Data M).getD (1 * 24 + (23 - k)) 0
      = M.getD (1 * 24 + (23 - k)) 0 ^^^ (lcgSeq (16 * row0Seed M) k / 32768) ∧
    lcgSeq (16 * row0Seed M) k < 65536 ∧
    (lcgSeq (16 * row0Seed M) k / 32768 = 0 ∨ lcgSeq (16 * row0Seed M) k / 32768 = 1) := by
  have hlt := lcgSeq_lt (16 * row0Seed M) k h1
  refine ⟨?_, hlt, by omega⟩
  rw [scramble_getD, hlen, if_pos (by omega)]
  have : 47 - (1 * 24 + (23 - k)) = k := by omega
  rw [this, keystream_getD M hM k h1 h23]

theorem mbe_demodulate_keystream_witness :
    (mbe_demodulateAmbe3600x2450Data (List.replicate 96 1)).getD (1 * 24 + (23 - 2)) 0
      = (List.replicate 96 1).getD (1 * 24 + (23 - 2)) 0
        ^^^ (lcgSeq (16 * row0Seed (List.replicate 96 1)) 2 / 32768) ∧
    lcgSeq (16 * row0Seed (List.replicate 96 1)) 2 < 65536 ∧
    (lcgSeq (16 * row0Seed (List.replicate 96 1)) 2 / 32768 = 0
      ∨ lcgSeq (16 * row0Seed (List.replicate 96 1)) 2 / 32768 = 1) :=
  mbe_demodulate_keystream (List.replicate 96 1) rfl (by decide) 2 (by decide) (by decide)

/-- Claim C9. The scrambler changes nothing outside row 1 columns 0 .. 22: every cell
of rows 0, 2 and 3 and the cell row 1 column 23 keeps its value, and the frame keeps its
size. -/
theorem mbe_demodulate_frame (M : List Nat) (r col : Nat) (hr : r < 4) (hcol : col < 24)
    (hcell : r ≠ 1 ∨ col = 23) :
    (mbe_demodulateAmbe3600x2450Data M).getD (r * 24 + col) 0 = M.getD (r * 24 + col) 0 ∧
    (mbe_demodulateAmbe3600x2450Data M).length = M.length := by
  refine ⟨?_, scramble_length M⟩
  rw [scramble_getD, if_neg (by omega)]

theorem mbe_demodulate_frame_witness :
    (mbe_demodulateAmbe3600x2450Data (List.replicate 96 1)).getD (1 * 24 + 23) 0
      = (List.replicate 96 1).getD (1 * 24 + 23) 0 ∧
    (mbe_demodulateAmbe3600x2450Data (List.replicate 96 1)).length
      = (List.replicate 96 1).length :=
  mbe_demodulate_frame (List.replicate 96 1) 1 23 (by decide) (by decide) (Or.inr rfl)

/-- Claim C10. The 72 cell addresses `rW[i] * 24 + rX[i]` and `rY[i] * 24 + rZ[i]`,
`i` in `0 .. 35`, lie inside the 4x24 matrix and are pairwise distinct; so
de-interleaving a 9-byte frame and interleaving the result gives the frame back, and
interleaving a 0/1 frame and de-interleaving gives back every cell the interleaver
reads. -/
theorem interleave_tables_bijective :
    (∀ i, i < 36 →
      rW.getD i 0 < 4 ∧ rX.getD i 0 < 24 ∧ rY.getD i 0 < 4 ∧ rZ.getD i 0 < 24 ∧
      rW.getD i 0 * 24 + rX.getD i 0 < 96 ∧ rY.getD i 0 * 24 + rZ.getD i 0 < 96) ∧
    (∀ i, i < 36 → ∀ j, j < 36 →
      (rW.getD i 0 * 24 + rX.getD i 0 = rW.getD j 0 * 24 + rX.getD j 0 → i = j) ∧
      (rY.getD i 0 * 24 + rZ.getD i 0 = rY.getD j 0 * 24 + rZ.getD j 0 → i = j) ∧
      rW.getD i 0 * 24 + rX.getD i 0 ≠ rY.getD j 0 * 24 + rZ.getD j 0) ∧
    (∀ data dataOut : List Nat, data.length = 9 → (∀ k, k < 9 → data.getD k 0 < 256) →
      dataOut.length = 9 → interleave (deinterleave data) dataOut = data) ∧
    (∀ ambe_fr dataOut : List Nat, dataOut.length = 9 →
      (∀ n, n < 72 → ambe_fr.getD (cellAddr n) 0 ≤ 1) →
      ∀ n, n < 72 → (deinterleave (interleave ambe_fr dataOut)).getD (cellAddr n) 0
        = ambe_fr.getD (cellAddr n) 0) := by
  refine ⟨?_, tables_distinct, ?_, ?_⟩
  · intro i hi
    have := tables_in_range i hi
    omega
  · intro data dataOut hlen hbytes hout
    have hcell : ∀ n, n < 72 → (deinterleave data).getD (cellAddr n) 0 ≤ 1 := by
      intro n hn
      rw [deinterleave_cell data n hn]
      exact streamBit_le_one _ _
    obtain ⟨hl, hget⟩ := interleave_spec (deinterleave data) dataOut hout hcell
    apply list_ext_getD _ _ (by rw [hl, hlen])
    intro k hk
    rw [hl] at hk
    rw [hget k hk]
    unfold packByte
    beta_reduce
    rw [deinterleave_cell data (8 * k) (by omega), deinterleave_cell data (8 * k + 1) (by omega),
      deinterleave_cell data (8 * k + 2) (by omega), deinterleave_cell data (8 * k + 3) (by omega),
      deinterleave_cell data (8 * k + 4) (by omega), deinterleave_cell data (8 * k + 5) (by omega),
      deinterleave_cell data (8 * k + 6) (by omega), deinterleave_cell data (8 * k + 7) (by omega)]
    unfold streamBit
    have hb := hbytes k hk
    have e0 : (8 * k) / 8 = k := by omega
    have e1 : (8 * k + 1) / 8 = k := by omega
    have e2 : (8 * k + 2) / 8 = k := by omega
    have e3 : (8 * k + 3) / 8 = k := by omega
    have e4 : (8 * k + 4) / 8 = k := by omega
    have e5 : (8 * k + 5) / 8 = k := by omega
    have e6 : (8 * k + 6) / 8 = k := by omega
    have e7 : (8 * k + 7) / 8 = k := by omega
    have m0 : (8 * k) % 8 = 0 := by omega
    have m1 : (8 * k + 1) % 8 = 1 := by omega
    have m2 : (8 * k + 2) % 8 = 2 := by omega
    have m3 : (8 * k + 3) % 8 = 3 := by omega
    have m4 : (8 * k + 4) % 8 = 4 := by omega
    have m5 : (8 * k + 5) % 8 = 5 := by omega
    have m6 : (8 * k + 6) % 8 = 6 := by omega
    have m7 : (8 * k + 7) % 8 = 7 := by omega
    rw [e0, e1, e2, e3, e4, e5, e6, e7, m0, m1, m2, m3, m4, m5, m6, m7]
    exact byte_bits _ hb
  · intro ambe_fr dataOut hout hcell n hn
    obtain ⟨_, hget⟩ := interleave_spec ambe_fr dataOut hout hcell
    rw [deinterleave_cell _ n hn]
    exact streamBit_of_packByte _ (fun n => ambe_fr.getD (cellAddr n) 0) hcell hget n hn

theorem interleave_tables_bijective_witness :
    interleave (deinterleave [66, 4, 70, 92, 18, 100, 64, 157, 44]) [0, 0, 0, 0, 0, 0, 0, 0, 0]
      = [66, 4, 70, 92, 18, 100, 64, 157, 44] :=
  interleave_tables_bijective.2.2.1 [66, 4, 70, 92, 18, 100, 64, 157, 44]
    [0, 0, 0, 0, 0, 0, 0, 0, 0] rfl (by decide) rfl

/-! ## The logged loops are the loops -/

theorem unpack_inner_log (inA : List Nat) : ∀ (l : List Nat) (a : List Nat)
    (log : List (Nat × Nat × Nat)) (pos : Nat),
    ∃ L,
      l.foldl (fun (st : List (Nat × Nat × Nat) × Nat) i =>
          (st.1 ++ [(i, st.2 >>> 3, st.2)], st.2 + 1)) (log, pos)
        = (log ++ L, pos + l.length) ∧
      l.foldl (fun (st : List Nat × Nat) i =>
          let tmp := inA.getD (st.2 >>> 3) 0 &&& (1 <<< i)
          (st.1.set st.2 (if tmp ≠ 0 then 1 else 0), st.2 + 1)) (a, pos)
        = (L.foldl (fun buf acc =>
            buf.set acc.2.2 (if inA.getD acc.2.1 0 &&& (1 <<< acc.1) ≠ 0 then 1 else 0)) a,
          pos + l.length) := by
  intro l
  induction l with
  | nil =>
    intro a log pos
    exact ⟨[], by simp, rfl⟩
  | cons i l ih =>
    intro a log pos
    obtain ⟨L, h1, h2⟩ := ih
      (a.set pos (if inA.getD (pos >>> 3) 0 &&& (1 <<< i) ≠ 0 then 1 else 0))
      (log ++ [(i, pos >>> 3, pos)]) (pos + 1)
    refine ⟨(i, pos >>> 3, pos) :: L, ?_, ?_⟩
    · rw [List.foldl_cons]
      have e : pos + (i :: l).length = pos + 1 + l.length := by
        rw [List.length_cons]; omega
      rw [e, show log ++ (i, pos >>> 3, pos) :: L = log ++ [(i, pos >>> 3, pos)] ++ L by simp]
      exact h1
    · rw [List.foldl_cons]
      have e : pos + (i :: l).length = pos + 1 + l.length := by
        rw [List.length_cons]; omega
      rw [e, List.foldl_cons]
      exact h2

theorem unpack_outer_log (inA : List Nat) (is : List Nat) : ∀ (js : List Nat) (a : List Nat)
    (log : List (Nat × Nat × Nat)) (pos : Nat),
    ∃ L,
      js.foldl (fun st _ => is.foldl (fun (st : List (Nat × Nat × Nat) × Nat) i =>
          (st.1 ++ [(i, st.2 >>> 3, st.2)], st.2 + 1)) st) (log, pos)
        = (log ++ L, pos + js.length * is.length) ∧
      js.foldl (fun st _ => is.foldl (fun (st : List Nat × Nat) i =>
          let tmp := inA.getD (st.2 >>> 3) 0 &&& (1 <<< i)
          (st.1.set st.2 (if tmp ≠ 0 then 1 else 0), st.2 + 1)) st) (a, pos)
        = (L.foldl (fun buf acc =>
            buf.set acc.2.2 (if inA.getD acc.2.1 0 &&& (1 <<< acc.1) ≠ 0 then 1 else 0)) a,
          pos + js.length * is.length) := by
  intro js
  induction js with
  | nil =>
    intro a log pos
    exact ⟨[], by simp, by simp⟩
  | cons j js ih =>
    intro a log pos
    obtain ⟨L1, h1, h2⟩ := unpack_inner_log inA is a log pos
    obtain ⟨L2, k1, k2⟩ := ih
      (L1.foldl (fun buf acc =>
        buf.set acc.2.2 (if inA.getD acc.2.1 0 &&& (1 <<< acc.1) ≠ 0 then 1 else 0)) a)
      (log ++ L1) (pos + is.length)
    have e : pos + (j :: js).length * is.length = pos + is.length + js.length * is.length := by
      rw [List.length_cons, Nat.add_mul]; omega
    refine ⟨L1 ++ L2, ?_, ?_⟩
    · rw [List.foldl_cons, h1, k1, e, List.append_assoc]
    · rw [List.foldl_cons, h2, k2, e, List.foldl_append]

/-- The unpacking loop performs exactly the stores listed in `unpackAccesses`, in that
order, each storing the tested bit of the byte loaded at the listed index. -/
theorem unpackBits_eq_accesses (inAmbe49 ambe49bits : List Nat) :
    unpackBits inAmbe49 ambe49bits
      = unpackAccesses.foldl (fun buf acc =>
          buf.set acc.2.2 (if inAmbe49.getD acc.2.1 0 &&& (1 <<< acc.1) ≠ 0 then 1 else 0))
        ambe49bits := by
  obtain ⟨L, h1, h2⟩ :=
    unpack_outer_log inAmbe49 (List.range 8).reverse (List.range 7) ambe49bits [] 0
  unfold unpackBits unpackAccesses
  rw [h1, h2]
  rfl

theorem interleave_log (M : List Nat) : ∀ (l : List Nat) (d : List Nat)
    (log : List (Nat × Nat)) (pos : Nat),
    ∃ L,
      l.foldl (fun (st : List (Nat × Nat) × Nat) i =>
          let log := st.1
          let bitIndex := st.2
          let log := log ++ [(rW.getD i 0 * 24 + rX.getD i 0, bitIndex >>> 3)]
          let bitIndex := bitIndex + 1
          let log := log ++ [(rY.getD i 0 * 24 + rZ.getD i 0, bitIndex >>> 3)]
          let bitIndex := bitIndex + 1
          (log, bitIndex)) (log, pos)
        = (log ++ L, pos + 2 * l.length) ∧
      l.foldl (fun (st : List Nat × Nat) i =>
          let dataOut := st.1
          let bitIndex := st.2
          let bit1 := M.getD (rW.getD i 0 * 24 + rX.getD i 0) 0
          let bit0 := M.getD (rY.getD i 0 * 24 + rZ.getD i 0) 0
          let dataOut := dataOut.set (bitIndex >>> 3)
            (((dataOut.getD (bitIndex >>> 3) 0 <<< 1) &&& 0xfe) ||| bit1)
          let bitIndex := bitIndex + 1
          let dataOut := dataOut.set (bitIndex >>> 3)
            (((dataOut.getD (bitIndex >>> 3) 0 <<< 1) &&& 0xfe) ||| bit0)
          let bitIndex := bitIndex + 1
          (dataOut, bitIndex)) (d, pos)
        = (L.foldl (fun d acc =>
            d.set acc.2 (((d.getD acc.2 0 <<< 1) &&& 0xfe) ||| M.getD acc.1 0)) d,
          pos + 2 * l.length) := by
  intro l
  induction l with
  | nil =>
    intro d log pos
    exact ⟨[], by simp, rfl⟩
  | cons i l ih =>
    intro d log pos
    obtain ⟨L, h1, h2⟩ := ih
      ((d.set (pos >>> 3) (((d.getD (pos >>> 3) 0 <<< 1) &&& 0xfe)
          ||| M.getD (rW.getD i 0 * 24 + rX.getD i 0) 0)).set ((pos + 1) >>> 3)
        ((((d.set (pos >>> 3) (((d.getD (pos >>> 3) 0 <<< 1) &&& 0xfe)
          ||| M.getD (rW.getD i 0 * 24 + rX.getD i 0) 0)).getD ((pos + 1) >>> 3) 0 <<< 1)
            &&& 0xfe) ||| M.getD (rY.getD i 0 * 24 + rZ.getD i 0) 0))
      (log ++ [(rW.getD i 0 * 24 + rX.getD i 0, pos >>> 3)]
        ++ [(rY.getD i 0 * 24 + rZ.getD i 0, (pos + 1) >>> 3)]) (pos + 1 + 1)
    have e : pos + 2 * (i :: l).length = pos + 1 + 1 + 2 * l.length := by
      rw [List.length_cons]; omega
    refine ⟨(rW.getD i 0 * 24 + rX.getD i 0, pos >>> 3)
      :: (rY.getD i 0 * 24 + rZ.getD i 0, (pos + 1) >>> 3) :: L, ?_, ?_⟩
    · rw [List.foldl_cons, e,
        show log ++ (rW.getD i 0 * 24 + rX.getD i 0, pos >>> 3)
            :: (rY.getD i 0 * 24 + rZ.getD i 0, (pos + 1) >>> 3) :: L
          = log ++ [(rW.getD i 0 * 24 + rX.getD i 0, pos >>> 3)]
            ++ [(rY.getD i 0 * 24 + rZ.getD i 0, (pos + 1) >>> 3)] ++ L by simp]
      exact h1
    · rw [List.foldl_cons, e, List.foldl_cons, List.foldl_cons]
      exact h2

/-- The loop of `interleave` performs exactly the loads and stores listed in
`interleaveAccesses`, in that order. -/
theorem interleave_eq_accesses (ambe_fr dataOut : List Nat) :
    interleave ambe_fr dataOut
      = interleaveAccesses.foldl (fun d acc =>
          d.set acc.2 (((d.getD acc.2 0 <<< 1) &&& 0xfe) ||| ambe_fr.getD acc.1 0)) dataOut := by
  obtain ⟨L, h1, h2⟩ := interleave_log ambe_fr (List.range 36) dataOut [] 0
  unfold interleave interleaveAccesses
  rw [h1, h2]
  rfl

/-! ## Facts about the logged accesses -/

theorem unpackAccesses_eq :
    unpackAccesses = (List.range 56).map (fun p => (7 - p % 8, p >>> 3, p)) := by
  decide

theorem interleaveAccesses_eq :
    interleaveAccesses = (List.range 72).map (fun n => (cellAddr n, n >>> 3)) := by
  decide

theorem interleaveAccesses_bounds :
    ∀ acc, acc ∈ interleaveAccesses → acc.1 < 96 ∧ acc.2 < 9 := by
  decide

theorem frameStores_nodup : frameStores.Nodup := by
  decide

theorem interleave_loads_nodup : (interleaveAccesses.map Prod.fst).Nodup := by
  decide

theorem loads_subset_stores :
    ∀ c, c ∈ interleaveAccesses.map Prod.fst → c ∈ frameStores := by
  decide

theorem stores_subset_loads :
    ∀ c, c ∈ frameStores → c ∈ interleaveAccesses.map Prod.fst := by
  decide

theorem frameStores_lt : ∀ c, c ∈ frameStores → c < 96 := by
  decide

set_option maxRecDepth 100000 in
theorem frameStores_mem : ∀ c, c < 96 →
    (c ∈ frameStores ↔
      (c < 24 ∨ (24 ≤ c ∧ c < 47) ∨ (48 ≤ c ∧ c < 59) ∨ (72 ≤ c ∧ c < 86))) := by
  decide

/-! ## The seed of the scrambler in the pipeline -/

theorem keystream_zero (M : List Nat) (hM : ∀ c, c < 96 → M.getD c 0 ≤ 1) :
    (keystream M).getD 0 0 = 16 * row0Seed M := by
  unfold keystream
  simp only []
  rw [foo_eq_row0Seed M hM]
  have hs := row0Seed_lt M hM
  have hlen : ((List.replicate 115 0).set 0 ((16 * row0Seed M) % 65536)).length = 115 := by
    rw [List.length_set, List.length_replicate]
  obtain ⟨l1, g1⟩ := lcg_loop 23 ((List.replicate 115 0).set 0 ((16 * row0Seed M) % 65536))
    (by rw [hlen]; decide)
  obtain ⟨l2, g2⟩ := div_loop 23 _ (by rw [l1, hlen]; decide)
  rw [g2 0, if_neg (by omega), g1 0, if_neg (by omega), getD_set, if_pos ⟨rfl, by
    rw [List.length_replicate]; decide⟩, Nat.mod_eq_of_lt (by omega)]

theorem row0Seed_frames (bits fr : List Nat) (hb : ∀ p, bits.getD p 0 ≤ 1)
    (hfr : fr.length = 96) :
    row0Seed (convert49BitAmbeTo72BitFrames bits fr)
      = bitsValue (fun t => bits.getD (11 - t) 0) 12 := by
  unfold row0Seed
  apply bitsValue_congr
  intro t ht
  show (convert49BitAmbeTo72BitFrames bits fr).getD (12 + t) 0 = bits.getD (11 - t) 0
  rw [(frames_spec bits fr).2, hfr, if_pos (by omega), if_pos (by omega)]
  have : 23 - (12 + t) = 11 - t := by omega
  rw [this, c0Word_bit bits (11 - t) (by omega), indicator_of_le_one _ (hb _)]

set_option maxRecDepth 100000 in
theorem byte_high_nibble : ∀ y, y < 256 →
    ((y >>> 4) &&& 1) + 2 * ((y >>> 5) &&& 1) + 4 * ((y >>> 6) &&& 1) + 8 * ((y >>> 7) &&& 1)
      = y / 16 := by
  decide

set_option maxRecDepth 100000 in
theorem byte_value : ∀ x, x < 256 →
    ((x >>> 0) &&& 1) + 2 * ((x >>> 1) &&& 1) + 4 * ((x >>> 2) &&& 1) + 8 * ((x >>> 3) &&& 1)
      + 16 * ((x >>> 4) &&& 1) + 32 * ((x >>> 5) &&& 1) + 64 * ((x >>> 6) &&& 1)
      + 128 * ((x >>> 7) &&& 1) = x := by
  decide

theorem first12_value (b : List Nat) (h0 : b.getD 0 0 < 256) (h1 : b.getD 1 0 < 256) :
    bitsValue (fun t => streamBit b (11 - t)) 12 = b.getD 0 0 * 16 + b.getD 1 0 / 16 := by
  have hx := byte_value _ h0
  have hy := byte_high_nibble _ h1
  simp only [bitsValue, streamBit, Nat.reduceSub, Nat.reduceDiv, Nat.reduceMod, Nat.reducePow,
    Nat.sub_zero]
  omega

/-- Claim C11. For a frame of 0/1 cells and any prior contents of the 9-byte output
buffer, stream bit `2 * i` of the output of `interleave` is the cell
`rW[i] * 24 + rX[i]` and stream bit `2 * i + 1` is the cell `rY[i] * 24 + rZ[i]`, for
every `i` in `0 .. 35`; the stores of `interleave` are those of `interleaveAccesses`,
all at byte indices `0 .. 8`. -/
theorem interleave_stream_bits :
    (∀ ambe_fr dataOut : List Nat, ambe_fr.length = 96 →
      (∀ c, c < 96 → ambe_fr.getD c 0 ≤ 1) → dataOut.length = 9 →
      ∀ i, i < 36 →
        streamBit (interleave ambe_fr dataOut) (2 * i)
          = ambe_fr.getD (rW.getD i 0 * 24 + rX.getD i 0) 0 ∧
        streamBit (interleave ambe_fr dataOut) (2 * i + 1)
          = ambe_fr.getD (rY.getD i 0 * 24 + rZ.getD i 0) 0) ∧
    (∀ ambe_fr dataOut : List Nat,
      interleave ambe_fr dataOut
        = interleaveAccesses.foldl (fun d acc =>
            d.set acc.2 (((d.getD acc.2 0 <<< 1) &&& 0xfe) ||| ambe_fr.getD acc.1 0)) dataOut) ∧
    (∀ acc, acc ∈ interleaveAccesses → acc.2 ≤ 8) := by
  refine ⟨?_, interleave_eq_accesses, ?_⟩
  · intro M out _ hM hout i hi
    have hcell : ∀ n, n < 72 → M.getD (cellAddr n) 0 ≤ 1 :=
      fun n hn => hM _ (cellAddr_lt n hn)
    obtain ⟨_, hbytes⟩ := interleave_spec M out hout hcell
    have h := streamBit_of_packByte _ (fun n => M.getD (cellAddr n) 0) hcell hbytes
    constructor
    · rw [h (2 * i) (by omega)]
      show M.getD (cellAddr (2 * i)) 0 = _
      rw [cellAddr_even]
    · rw [h (2 * i + 1) (by omega)]
      show M.getD (cellAddr (2 * i + 1)) 0 = _
      rw [cellAddr_odd]
  · intro acc hacc
    have := (interleaveAccesses_bounds acc hacc).2
    omega

theorem interleave_stream_bits_witness :
    streamBit (interleave (List.replicate 96 1) [255, 0, 255, 0, 255, 0, 255, 0, 255]) (2 * 5)
        = (List.replicate 96 1).getD (rW.getD 5 0 * 24 + rX.getD 5 0) 0 ∧
    streamBit (interleave (List.replicate 96 1) [255, 0, 255, 0, 255, 0, 255, 0, 255])
        (2 * 5 + 1)
        = (List.replicate 96 1).getD (rY.getD 5 0 * 24 + rZ.getD 5 0) 0 :=
  interleave_stream_bits.1 (List.replicate 96 1) [255, 0, 255, 0, 255, 0, 255, 0, 255] rfl
    (by decide) rfl 5 (by decide)

/-- Claim C12. The cells loaded by `interleave` are exactly the cells stored by
`convert49BitAmbeTo72BitFrames`: both lists have no repetition (each cell is stored
once and loaded once) and the same 72 members; a stored cell holds one bit of the C0
field, of the C1 codeword, of C2 or of C3, whatever the frame held before; a cell that
is not stored keeps its prior value, and none of these (row 1 column 23 among them) is
loaded. -/
theorem loads_match_stores :
    frameStores.Nodup ∧ (interleaveAccesses.map Prod.fst).Nodup ∧
    frameStores.length = 72 ∧
    (∀ c, c ∈ interleaveAccesses.map Prod.fst ↔ c ∈ frameStores) ∧
    (1 * 24 + 23) ∉ frameStores ∧ (1 * 24 + 23) ∉ interleaveAccesses.map Prod.fst ∧
    (∀ inAmbe49bits ambe_frOut : List Nat, ambe_frOut.length = 96 →
      ∀ c, c ∈ frameStores →
        (convert49BitAmbeTo72BitFrames inAmbe49bits ambe_frOut).getD c 0 =
          if c < 24 then (c0Word inAmbe49bits >>> (23 - c)) &&& 1
          else if c < 47 then (golay2312word (c1Data inAmbe49bits) >>> (46 - c)) &&& 1
          else if c < 59 then inAmbe49bits.getD (34 - (c - 48)) 0
          else inAmbe49bits.getD (48 - (c - 72)) 0) ∧
    (∀ inAmbe49bits ambe_frOut : List Nat, ambe_frOut.length = 96 →
      ∀ c, c ∉ frameStores →
        (convert49BitAmbeTo72BitFrames inAmbe49bits ambe_frOut).getD c 0
          = ambe_frOut.getD c 0) := by
  refine ⟨frameStores_nodup, interleave_loads_nodup, rfl,
    fun c => ⟨loads_subset_stores c, stores_subset_loads c⟩, by decide, by decide, ?_, ?_⟩
  · intro bits fr hfr c hc
    have hlt := frameStores_lt c hc
    have hmem := (frameStores_mem c hlt).mp hc
    rw [(frames_spec bits fr).2, hfr, if_pos hlt]
    by_cases h1 : c < 24
    · rw [if_pos h1, if_pos h1]
    · rw [if_neg h1, if_neg h1]
      by_cases h2 : c < 47
      · rw [if_pos h2, if_pos h2]
      · rw [if_neg h2, if_neg h2]
        by_cases h3 : c < 59
        · rw [if_pos (by omega), if_pos h3]
        · rw [if_neg (by omega), if_neg h3, if_pos (by omega)]
  · intro bits fr hfr c hc
    rw [(frames_spec bits fr).2, hfr]
    by_cases hlt : c < 96
    · have hmem := (frameStores_mem c hlt).not.mp hc
      rw [if_pos hlt, if_neg (by omega), if_neg (by omega), if_neg (by omega),
        if_neg (by omega)]
    · rw [if_neg hlt]
      exact (getD_of_length_le fr c (by omega)).symm

theorem loads_match_stores_witness :
    (convert49BitAmbeTo72BitFrames (List.replicate 49 1) (List.replicate 96 0)).getD 47 0
      = (List.replicate 96 0).getD 47 0 :=
  loads_match_stores.2.2.2.2.2.2.2 (List.replicate 49 1) (List.replicate 96 0) rfl 47
    (by decide)

/-- Claim C13. The unpacking loop stores at every position `p` in `0 .. 48` the bit
`(b[p / 8] >> (7 - p % 8)) AND 1` of the input, a value that is 0 or 1: the bits of each
byte in turn, most significant first. -/
theorem unpack_bit_order :
    ∀ inAmbe49 ambe49bits : List Nat, inAmbe49.length = 7 → ambe49bits.length = 49 →
      ∀ p, p < 49 →
        (unpackBits inAmbe49 ambe49bits).getD p 0
          = (inAmbe49.getD (p / 8) 0 >>> (7 - p % 8)) &&& 1 ∧
        ((unpackBits inAmbe49 ambe49bits).getD p 0 = 0
          ∨ (unpackBits inAmbe49 ambe49bits).getD p 0 = 1) := by
  intro inA a _ ha p hp
  have h : (unpackBits inA a).getD p 0 = streamBit inA p := by
    rw [(unpack_spec inA a).2 p, ha, if_pos (by omega)]
  have hle := streamBit_le_one inA p
  rw [h]
  exact ⟨rfl, by omega⟩

theorem unpack_bit_order_witness :
    (unpackBits [0x12, 0x34, 0x56, 0x78, 0x9a, 0xbc, 0xde] (List.replicate 49 0)).getD 11 0
        = ([0x12, 0x34, 0x56, 0x78, 0x9a, 0xbc, 0xde].getD (11 / 8) 0 >>> (7 - 11 % 8)) &&& 1 ∧
    ((unpackBits [0x12, 0x34, 0x56, 0x78, 0x9a, 0xbc, 0xde] (List.replicate 49 0)).getD 11 0 = 0
      ∨ (unpackBits [0x12, 0x34, 0x56, 0x78, 0x9a, 0xbc, 0xde] (List.replicate 49 0)).getD 11 0
        = 1) :=
  unpack_bit_order [0x12, 0x34, 0x56, 0x78, 0x9a, 0xbc, 0xde] (List.replicate 49 0) rfl rfl 11
    (by decide)

/-- Claim C14. With `d` the sum of `bit_i * 2 ^ i` over the input bits `0 .. 11`,
`g = golay2312word d` and `w = g OR (parity g << 23)`, row 0 column `c` holds bit
`23 - c` of `w` for every `c` in `0 .. 23`: the parity at column 0 and the data at
columns `12 .. 23`, column `23 - i` holding input bit `i`. -/
theorem row0_layout :
    ∀ inAmbe49bits ambe_frOut : List Nat, ambe_frOut.length = 96 →
      c0Data inAmbe49bits
        = ((List.range 12).map
            (fun i => (if inAmbe49bits.getD i 0 ≠ 0 then 1 else 0) * 2 ^ i)).sum ∧
      (∀ c, c < 24 →
        (convert49BitAmbeTo72BitFrames inAmbe49bits ambe_frOut).getD (0 * 24 + c) 0
          = ((golay2312word (c0Data inAmbe49bits)
              ||| (parity (golay2312word (c0Data inAmbe49bits)) <<< 23)) >>> (23 - c)) &&& 1) ∧
      (convert49BitAmbeTo72BitFrames inAmbe49bits ambe_frOut).getD (0 * 24 + 0) 0
        = parity (golay2312word (c0Data inAmbe49bits)) ∧
      (∀ i, i < 12 →
        (convert49BitAmbeTo72BitFrames inAmbe49bits ambe_frOut).getD (0 * 24 + (23 - i)) 0
          = if inAmbe49bits.getD i 0 ≠ 0 then 1 else 0) := by
  intro bits fr hfr
  have hspec := (frames_spec bits fr).2
  refine ⟨?_, ?_, ?_, ?_⟩
  · simp [c0Data, bitsValue, List.range, List.range.loop]
    omega
  · intro c hc
    rw [hspec, hfr, if_pos (by omega), if_pos (by omega)]
    have : 23 - (0 * 24 + c) = 23 - c := by omega
    rw [this]
    rfl
  · rw [hspec, hfr, if_pos (by decide), if_pos (by decide),
      golay2312word_natCast _ (c0Data_lt _)]
    exact c0Word_top bits
  · intro i hi
    rw [hspec, hfr, if_pos (by omega), if_pos (by omega)]
    have : 23 - (0 * 24 + (23 - i)) = i := by omega
    rw [this]
    exact c0Word_bit bits i hi

theorem row0_layout_witness :
    (convert49BitAmbeTo72BitFrames (List.replicate 49 1) (List.replicate 96 0)).getD
        (0 * 24 + 0) 0
      = parity (golay2312word (c0Data (List.replicate 49 1))) :=
  (row0_layout (List.replicate 49 1) (List.replicate 96 0) rfl).2.2.1

/-- Claim C15, as stated, fails. For the input whose bits 12 and 13 are 1 (C1 data 3)
and a zero frame: row 1 column 23 does not hold the least significant bit of the
codeword (it keeps its 0 while that bit is 1), and row 1 column 0 does not keep its
prior value (it receives bit 22 of the codeword, which is 1). -/
theorem row1_layout_counterexample :
    ¬ (∀ c, 1 ≤ c → c ≤ 23 →
        (convert49BitAmbeTo72BitFrames
          [0, 0, 0, 0, 0, 0, 0, 0, 0, 0, 0, 0, 1, 1, 0, 0, 0, 0, 0, 0, 0, 0, 0, 0, 0,
            0, 0, 0, 0, 0, 0, 0, 0, 0, 0, 0, 0, 0, 0, 0, 0, 0, 0, 0, 0, 0, 0, 0, 0]
          (List.replicate 96 0)).getD (1 * 24 + c) 0
        = (golay2312word (c1Data
          [0, 0, 0, 0, 0, 0, 0, 0, 0, 0, 0, 0, 1, 1, 0, 0, 0, 0, 0, 0, 0, 0, 0, 0, 0,
            0, 0, 0, 0, 0, 0, 0, 0, 0, 0, 0, 0, 0, 0, 0, 0, 0, 0, 0, 0, 0, 0, 0, 0])
          >>> (23 - c)) &&& 1) ∧
    ¬ ((convert49BitAmbeTo72BitFrames
          [0, 0, 0, 0, 0, 0, 0, 0, 0, 0, 0, 0, 1, 1, 0, 0, 0, 0, 0, 0, 0, 0, 0, 0, 0,
            0, 0, 0, 0, 0, 0, 0, 0, 0, 0, 0, 0, 0, 0, 0, 0, 0, 0, 0, 0, 0, 0, 0, 0]
          (List.replicate 96 0)).getD (1 * 24 + 0) 0
        = (List.replicate 96 0).getD (1 * 24 + 0) 0) ∧
    (1 * 24 + 0) ∈ frameStores := by
  refine ⟨fun h => absurd (h 23 (by decide) (by decide)) (by decide), by decide, by decide⟩

/-- Claim C15, amended. `convert49BitAmbeTo72BitFrames` writes the 23-bit Golay
codeword of input bits `12 .. 23` into row 1 columns `0 .. 22`, the most significant
bit of the codeword at column 0 and the least significant at column 22 (the 12 data
bits at columns `11 .. 22`, column `22 - i` holding input bit `12 + i`), and does not
write row 1 column 23, which keeps its prior value. -/
theorem row1_layout :
    ∀ inAmbe49bits ambe_frOut : List Nat, ambe_frOut.length = 96 →
      (∀ c, c ≤ 22 →
        (convert49BitAmbeTo72BitFrames inAmbe49bits ambe_frOut).getD (1 * 24 + c) 0
          = (golay2312word (c1Data inAmbe49bits) >>> (22 - c)) &&& 1) ∧
      golay2312word (c1Data inAmbe49bits) < 2 ^ 23 ∧
      (∀ i, i < 12 →
        (convert49BitAmbeTo72BitFrames inAmbe49bits ambe_frOut).getD (1 * 24 + (22 - i)) 0
          = if inAmbe49bits.getD (12 + i) 0 ≠ 0 then 1 else 0) ∧
      (convert49BitAmbeTo72BitFrames inAmbe49bits ambe_frOut).getD (1 * 24 + 23) 0
        = ambe_frOut.getD (1 * 24 + 23) 0 ∧
      (1 * 24 + 23) ∉ frameStores ∧
      (∀ c, c ≤ 22 → (1 * 24 + c) ∈ frameStores) := by
  intro bits fr hfr
  have hspec := (frames_spec bits fr).2
  refine ⟨?_, ?_, ?_, ?_, by decide, by decide⟩
  · intro c hc
    rw [hspec, hfr, if_pos (by omega), if_neg (by omega), if_pos (by omega)]
    have : 46 - (1 * 24 + c) = 22 - c := by omega
    rw [this]
  · rw [golay2312word_natCast _ (c1Data_lt _)]
    exact golayCore_lt _ (c1Data_lt _)
  · intro i hi
    rw [hspec, hfr, if_pos (by omega), if_neg (by omega), if_pos (by omega)]
    have : 46 - (1 * 24 + (22 - i)) = i := by omega
    rw [this]
    exact c1Word_bit bits i hi
  · rw [hspec, hfr, if_pos (by decide), if_neg (by decide), if_neg (by decide),
      if_neg (by decide), if_neg (by decide)]

theorem row1_layout_witness :
    (convert49BitAmbeTo72BitFrames (List.replicate 49 1) (List.replicate 96 0)).getD
        (1 * 24 + 23) 0
      = (List.replicate 96 0).getD (1 * 24 + 23) 0 :=
  (row1_layout (List.replicate 49 1) (List.replicate 96 0) rfl).2.2.2.1

/-- Claim C16, as stated, fails. For the input whose bits `24 .. 48` are all 1 and a
zero frame: row 2 column 23 and row 3 column 23 hold none of the field bits (they keep
their 0), and row 2 column 0 and row 3 column 0 do not keep their prior value (they
receive input bits 34 and 48). -/
theorem raw_fields_counterexample :
    ¬ (∃ p, 24 ≤ p ∧ p ≤ 34 ∧
        (convert49BitAmbeTo72BitFrames
          [0, 0, 0, 0, 0, 0, 0, 0, 0, 0, 0, 0, 0, 0, 0, 0, 0, 0, 0, 0, 0, 0, 0, 0, 1,
            1, 1, 1, 1, 1, 1, 1, 1, 1, 1, 1, 1, 1, 1, 1, 1, 1, 1, 1, 1, 1, 1, 1, 1]
          (List.replicate 96 0)).getD (2 * 24 + 23) 0
        = [0, 0, 0, 0, 0, 0, 0, 0, 0, 0, 0, 0, 0, 0, 0, 0, 0, 0, 0, 0, 0, 0, 0, 0, 1,
            1, 1, 1, 1, 1, 1, 1, 1, 1, 1, 1, 1, 1, 1, 1, 1, 1, 1, 1, 1, 1, 1, 1, 1].getD p 0) ∧
    ¬ ((convert49BitAmbeTo72BitFrames
          [0, 0, 0, 0, 0, 0, 0, 0, 0, 0, 0, 0, 0, 0, 0, 0, 0, 0, 0, 0, 0, 0, 0, 0, 1,
            1, 1, 1, 1, 1, 1, 1, 1, 1, 1, 1, 1, 1, 1, 1, 1, 1, 1, 1, 1, 1, 1, 1, 1]
          (List.replicate 96 0)).getD (2 * 24 + 0) 0
        = (List.replicate 96 0).getD (2 * 24 + 0) 0) ∧
    ¬ (∃ p, 35 ≤ p ∧ p ≤ 48 ∧
        (convert49BitAmbeTo72BitFrames
          [0, 0, 0, 0, 0, 0, 0, 0, 0, 0, 0, 0, 0, 0, 0, 0, 0, 0, 0, 0, 0, 0, 0, 0, 1,
            1, 1, 1, 1, 1, 1, 1, 1, 1, 1, 1, 1, 1, 1, 1, 1, 1, 1, 1, 1, 1, 1, 1, 1]
          (List.replicate 96 0)).getD (3 * 24 + 23) 0
        = [0, 0, 0, 0, 0, 0, 0, 0, 0, 0, 0, 0, 0, 0, 0, 0, 0, 0, 0, 0, 0, 0, 0, 0, 1,
            1, 1, 1, 1, 1, 1, 1, 1, 1, 1, 1, 1, 1, 1, 1, 1, 1, 1, 1, 1, 1, 1, 1, 1].getD p 0) ∧
    ¬ ((convert49BitAmbeTo72BitFrames
          [0, 0, 0, 0, 0, 0, 0, 0, 0, 0, 0, 0, 0, 0, 0, 0, 0, 0, 0, 0, 0, 0, 0, 0, 1,
            1, 1, 1, 1, 1, 1, 1, 1, 1, 1, 1, 1, 1, 1, 1, 1, 1, 1, 1, 1, 1, 1, 1, 1]
          (List.replicate 96 0)).getD (3 * 24 + 0) 0
        = (List.replicate 96 0).getD (3 * 24 + 0) 0) := by
  refine ⟨?_, by decide, ?_, by decide⟩
  · rintro ⟨p, h1, h2, h3⟩
    interval_cases p <;> exact absurd h3 (by decide)
  · rintro ⟨p, h1, h2, h3⟩
    interval_cases p <;> exact absurd h3 (by decide)

/-- Claim C16, amended. `convert49BitAmbeTo72BitFrames` copies the two unprotected
fields verbatim and left-aligned in their rows: the 11 bits `24 .. 34` occupy row 2
columns `0 .. 10` (column `j` holding bit `34 - j`) and the 14 bits `35 .. 48` occupy
row 3 columns `0 .. 13` (column `j` holding bit `48 - j`); the remaining cells of rows 2
and 3 (columns `11 .. 23` and `14 .. 23`) are not written and keep their prior value. -/
theorem raw_fields_layout :
    ∀ inAmbe49bits ambe_frOut : List Nat, ambe_frOut.length = 96 →
      (∀ j, j ≤ 10 →
        (convert49BitAmbeTo72BitFrames inAmbe49bits ambe_frOut).getD (2 * 24 + j) 0
          = inAmbe49bits.getD (34 - j) 0) ∧
      (∀ j, j ≤ 13 →
        (convert49BitAmbeTo72BitFrames inAmbe49bits ambe_frOut).getD (3 * 24 + j) 0
          = inAmbe49bits.getD (48 - j) 0) ∧
      (∀ c, 11 ≤ c → c ≤ 23 →
        (convert49BitAmbeTo72BitFrames inAmbe49bits ambe_frOut).getD (2 * 24 + c) 0
          = ambe_frOut.getD (2 * 24 + c) 0 ∧ (2 * 24 + c) ∉ frameStores) ∧
      (∀ c, 14 ≤ c → c ≤ 23 →
        (convert49BitAmbeTo72BitFrames inAmbe49bits ambe_frOut).getD (3 * 24 + c) 0
          = ambe_frOut.getD (3 * 24 + c) 0 ∧ (3 * 24 + c) ∉ frameStores) := by
  intro bits fr hfr
  have hspec := (frames_spec bits fr).2
  refine ⟨?_, ?_, ?_, ?_⟩
  · intro j hj
    rw [hspec, hfr, if_pos (by omega), if_neg (by omega), if_neg (by omega),
      if_pos (by omega)]
    congr 1
    omega
  · intro j hj
    rw [hspec, hfr, if_pos (by omega), if_neg (by omega), if_neg (by omega),
      if_neg (by omega), if_pos (by omega)]
    congr 1
    omega
  · intro c h1 h2
    constructor
    · rw [hspec, hfr, if_pos (by omega), if_neg (by omega), if_neg (by omega),
        if_neg (by omega), if_neg (by omega)]
    · intro hmem
      have := (frameStores_mem _ (frameStores_lt _ hmem)).mp hmem
      omega
  · intro c h1 h2
    constructor
    · rw [hspec, hfr, if_pos (by omega), if_neg (by omega), if_neg (by omega),
        if_neg (by omega), if_neg (by omega)]
    · intro hmem
      have := (frameStores_mem _ (frameStores_lt _ hmem)).mp hmem
      omega

theorem raw_fields_layout_witness :
    (convert49BitAmbeTo72BitFrames
        [0, 0, 0, 0, 0, 0, 0, 0, 0, 0, 0, 0, 0, 0, 0, 0, 0, 0, 0, 0, 0, 0, 0, 0, 1,
          0, 1, 1, 0, 0, 1, 0, 1, 1, 1, 0, 0, 1, 0, 1, 0, 1, 1, 0, 0, 1, 0, 1, 1]
        (List.replicate 96 0)).getD (2 * 24 + 3) 0
      = [0, 0, 0, 0, 0, 0, 0, 0, 0, 0, 0, 0, 0, 0, 0, 0, 0, 0, 0, 0, 0, 0, 0, 0, 1,
          0, 1, 1, 0, 0, 1, 0, 1, 1, 1, 0, 0, 1, 0, 1, 0, 1, 1, 0, 0, 1, 0, 1, 1].getD
          (34 - 3) 0 :=
  (raw_fields_layout _ (List.replicate 96 0) rfl).1 3 (by decide)

/-- Claim C17. `golay2312word` is linear over GF(2) on 12-bit values:
`golay2312word (a XOR b) = golay2312word a XOR golay2312word b`, and
`golay2312word 0 = 0`. -/
theorem golay2312word_linear :
    (∀ a b : Nat, a < 4096 → b < 4096 →
      golay2312word ((a ^^^ b : Nat) : Int) = golay2312word (a : Int) ^^^ golay2312word (b : Int)) ∧
    golay2312word 0 = 0 := by
  refine ⟨?_, by decide⟩
  intro a b ha hb
  rw [golay2312word_natCast a ha, golay2312word_natCast b hb,
    golay2312word_natCast _ (Nat.xor_lt_two_pow (n := 12) ha hb)]
  exact golayCore_xor a b ha hb

theorem golay2312word_linear_witness :
    golay2312word ((0xABC ^^^ 0x123 : Nat) : Int)
      = golay2312word ((0xABC : Nat) : Int) ^^^ golay2312word ((0x123 : Nat) : Int) :=
  golay2312word_linear.1 0xABC 0x123 (by decide) (by decide)

/-- Claim C18, the code evaluated. The unpacking loop makes 56 passes, loading the
input at `pos >> 3` and storing at `pos` for `pos = 0, 1, .., 55`: the loads are at the
indices `0 .. 6`, but the stores at `49 .. 55` are past the end of the 49-entry buffer
`ambe49bits`. -/
theorem unpack_stores_past_buffer :
    unpackAccesses = (List.range 56).map (fun p => (7 - p % 8, p >>> 3, p)) ∧
    unpackAccesses.map (fun acc => acc.2.2) = List.range 56 ∧
    (unpackAccesses.map (fun acc => acc.2.2)).filter (fun pos => decide (49 ≤ pos))
      = [49, 50, 51, 52, 53, 54, 55] ∧
    (unpackAccesses.map (fun acc => acc.2.1)).filter (fun k => decide (7 ≤ k)) = [] ∧
    (∀ inAmbe49 ambe49bits : List Nat,
      unpackBits inAmbe49 ambe49bits
        = unpackAccesses.foldl (fun buf acc =>
            buf.set acc.2.2 (if inAmbe49.getD acc.2.1 0 &&& (1 <<< acc.1) ≠ 0 then 1 else 0))
          ambe49bits) := by
  refine ⟨unpackAccesses_eq, by decide, by decide, by decide, unpackBits_eq_accesses⟩

/-- Claim C19, the code evaluated. In the pipeline the seed is computed after the
unpacking loop, and that loop has no defined result: on the input `12 34 56 78 9a bc de`,
as on every input, its run into the 49-entry bit array stops at a store past the end of
the array, so `mbe_demodulateAmbe3600x2450Data` is reached in an undefined state. The two
stages themselves compute the seed the claim gives: for every buffer `bits` of 0/1 values
whose entries `0 .. 11` are the first 12 bits of the bytes `b`, the seed `pr[0]` is
`16 * (b[0] * 16 + b[1] / 16)`, and `pr` is the keystream the scrambler applies. -/
theorem pipeline_seed_after_overrun :
    unpackBitsChecked [0x12, 0x34, 0x56, 0x78, 0x9a, 0xbc, 0xde] (List.replicate 49 0)
      = none ∧
    (∀ inAmbe49 : List Nat, unpackBitsChecked inAmbe49 (List.replicate 49 0) = none) ∧
    (∀ b bits : List Nat, (∀ k, k < 7 → b.getD k 0 < 256) → (∀ p, bits.getD p 0 ≤ 1) →
      (∀ p, p < 12 → bits.getD p 0 = streamBit b p) →
      (keystream (convert49BitAmbeTo72BitFrames bits (List.replicate (24 * 4) 0))).getD 0 0
        = 16 * (b.getD 0 0 * 16 + b.getD 1 0 / 16)) ∧
    (∀ bits : List Nat,
      mbe_demodulateAmbe3600x2450Data
          (convert49BitAmbeTo72BitFrames bits (List.replicate (24 * 4) 0))
        = ((List.range 23).reverse.foldl
            (fun (st : List Nat × Nat) j =>
              (st.1.set (1 * 24 + j) (st.1.getD (1 * 24 + j) 0
                ^^^ (keystream (convert49BitAmbeTo72BitFrames bits
                  (List.replicate (24 * 4) 0))).getD st.2 0), st.2 + 1))
            (convert49BitAmbeTo72BitFrames bits (List.replicate (24 * 4) 0), 1)).1) := by
  refine ⟨unpackBitsChecked_49 _ _ (List.length_replicate _ _),
    fun inAmbe49 => unpackBitsChecked_49 _ _ (List.length_replicate _ _), ?_,
    fun bits => scramble_eq _⟩
  intro b bits hb h01 hbits
  have hF01 := frames_le_one bits (List.replicate (24 * 4) 0) h01
    (fun c => by rw [getD_replicate_zero]; omega)
  rw [keystream_zero _ (fun c _ => hF01 c),
    row0Seed_frames _ _ h01 (by rw [List.length_replicate])]
  have hval : bitsValue (fun t => bits.getD (11 - t) 0) 12
      = bitsValue (fun t => streamBit b (11 - t)) 12 := by
    apply bitsValue_congr
    intro t _
    exact hbits (11 - t) (by omega)
  rw [hval, first12_value b (hb 0 (by decide)) (hb 1 (by decide))]

theorem pipeline_seed_after_overrun_witness :
    unpackBitsChecked [0x12, 0x34, 0x56, 0x78, 0x9a, 0xbc, 0xde] (List.replicate 49 0)
      = none ∧
    (keystream (convert49BitAmbeTo72BitFrames
        [0, 0, 0, 1, 0, 0, 1, 0, 0, 0, 1, 1, 0, 1, 0, 0, 0, 1, 0, 1, 0, 1, 1, 0, 0, 1, 1, 1,
            1, 0, 0, 0, 1, 0, 0, 1, 1, 0, 1, 0, 1, 0, 1, 1, 1, 1, 0, 0, 1]
        (List.replicate (24 * 4) 0))).getD 0 0
      = 16 * ([0x12, 0x34, 0x56, 0x78, 0x9a, 0xbc, 0xde].getD 0 0 * 16
          + [0x12, 0x34, 0x56, 0x78, 0x9a, 0xbc, 0xde].getD 1 0 / 16) :=
  ⟨pipeline_seed_after_overrun.1,
    pipeline_seed_after_overrun.2.2.1 [0x12, 0x34, 0x56, 0x78, 0x9a, 0xbc, 0xde] _
      (by decide) (getD_le_one_of_forall _ (by decide)) (by decide)⟩

/-- Claim C20, the code evaluated. The 7 low bits of the seventh input byte are what the
unpacking loop stores past the end of its 49-entry bit array: the passes with `pos` in
`49 .. 55` test bits `6 .. 0` of byte 6. On the inputs `12 34 56 78 9a bc de` and
`12 34 56 78 9a bc 81`, which agree on their first 49 bits, those passes store
`1 0 1 1 1 1 0` and `0 0 0 0 0 0 1`, and `convert49BitTo72BitAMBE` has no defined result
on either input, so the two outputs are not shown equal. The stages after the loop read
entries `0 .. 48` of the bit buffer only: two buffers that agree there give the same
9 bytes. -/
theorem low_bits_stored_past_buffer :
    unpackAccesses.filter (fun acc => decide (49 ≤ acc.2.2))
      = [(6, 6, 49), (5, 6, 50), (4, 6, 51), (3, 6, 52), (2, 6, 53), (1, 6, 54), (0, 6, 55)] ∧
    (unpackAccesses.filter (fun acc => decide (49 ≤ acc.2.2))).map (fun acc =>
        if [0x12, 0x34, 0x56, 0x78, 0x9a, 0xbc, 0xde].getD acc.2.1 0 &&& (1 <<< acc.1) ≠ 0
        then 1 else 0)
      = [1, 0, 1, 1, 1, 1, 0] ∧
    (unpackAccesses.filter (fun acc => decide (49 ≤ acc.2.2))).map (fun acc =>
        if [0x12, 0x34, 0x56, 0x78, 0x9a, 0xbc, 0x81].getD acc.2.1 0 &&& (1 <<< acc.1) ≠ 0
        then 1 else 0)
      = [0, 0, 0, 0, 0, 0, 1] ∧
    convert49BitTo72BitAMBE [0x12, 0x34, 0x56, 0x78, 0x9a, 0xbc, 0xde] (List.replicate 9 0)
      = none ∧
    convert49BitTo72BitAMBE [0x12, 0x34, 0x56, 0x78, 0x9a, 0xbc, 0x81] (List.replicate 9 0)
      = none ∧
    (∀ bits1 bits2 outAmbe72 : List Nat,
      (∀ p, p < 49 → bits1.getD p 0 = bits2.getD p 0) →
      interleave (mbe_demodulateAmbe3600x2450Data
          (convert49BitAmbeTo72BitFrames bits1 (List.replicate (24 * 4) 0))) outAmbe72
        = interleave (mbe_demodulateAmbe3600x2450Data
          (convert49BitAmbeTo72BitFrames bits2 (List.replicate (24 * 4) 0))) outAmbe72) := by
  refine ⟨by decide, by decide, by decide, convert_eq_none _ _, convert_eq_none _ _, ?_⟩
  intro bits1 bits2 outAmbe72 h
  rw [frames_congr bits1 bits2 _ h]

theorem low_bits_stored_past_buffer_witness :
    interleave (mbe_demodulateAmbe3600x2450Data
        (convert49BitAmbeTo72BitFrames
          [0, 0, 0, 1, 0, 0, 1, 0, 0, 0, 1, 1, 0, 1, 0, 0, 0, 1, 0, 1, 0, 1, 1, 0, 0, 1, 1, 1,
            1, 0, 0, 0, 1, 0, 0, 1, 1, 0, 1, 0, 1, 0, 1, 1, 1, 1, 0, 0, 1]
          (List.replicate (24 * 4) 0))) (List.replicate 9 0)
      = interleave (mbe_demodulateAmbe3600x2450Data
        (convert49BitAmbeTo72BitFrames
          [0, 0, 0, 1, 0, 0, 1, 0, 0, 0, 1, 1, 0, 1, 0, 0, 0, 1, 0, 1, 0, 1, 1, 0, 0, 1, 1, 1,
            1, 0, 0, 0, 1, 0, 0, 1, 1, 0, 1, 0, 1, 0, 1, 1, 1, 1, 0, 0, 1, 1, 0, 1, 1, 1, 1, 0]
          (List.replicate (24 * 4) 0))) (List.replicate 9 0) :=
  low_bits_stored_past_buffer.2.2.2.2.2 _ _ _ (by decide)

end vocoder
